/-
Verification of `sequentialread/modular-spatial-index`.

The repository maps 2-D integer coordinates to and from a 1-D ordered key
space using a Hilbert space-filling curve (`hilbert.go`, a copy of
github.com/google/hilbert), and decomposes axis-aligned rectangle queries
into byte ranges for ordered key-value stores (`spatial_index_2d.go`).

This file shallowly embeds both source files and proves properties of the
embedding.  Modelling conventions:
  * Go `int` is modelled as `Int`; Go `/` and `%` truncate toward zero and
    are modelled as `Int.tdiv` / `Int.tmod`; Go `&` on `int` is
    two's-complement bitwise AND, modelled by `goAnd` below; Go `^` (xor)
    is `Int.xor`.
  * Go `for` loops are modelled as structural recursion over an explicit
    iteration bound (`fuel`); each loop's own guard is still checked at
    every step exactly as in the source, so as long as the bound is at
    least the number of iterations the Go loop performs, the model computes
    exactly what the Go loop computes.  The Hilbert loops double (or halve)
    their counter between 1 and `edgeLength`, so `log2 edgeLength`
    iterations always suffice.
  * `[]byte` is modelled as `List Nat` (each entry a byte value).
  * `float32` appears only in one comparison,
    `float32(distance) > float32(width*height)*iopsCostParam`; the
    parameter is modelled as an exact rational and the comparison as exact
    integer cross-multiplication (see `splitGap`), abstracting float32
    rounding.
  * The modelled platform is 64-bit (`bits.UintSize = 64`).
-/
import Mathlib

namespace ModularSpatialIndex

/-! ## Go integer primitives -/

/-- Go's `&` on `int`: two's-complement bitwise AND, written with
kernel-computable `Nat` operations.  `-(m+1) & -(n+1) = -((m|n)+1)` and
`m & -(n+1)` is the bits of `m` outside `n` (i.e. `m ^^^ (m &&& n)`). -/
def goAnd : Int → Int → Int
  | .ofNat m, .ofNat n => .ofNat (m &&& n)
  | .negSucc m, .ofNat n => .ofNat (n ^^^ (n &&& m))
  | .ofNat m, .negSucc n => .ofNat (m ^^^ (m &&& n))
  | .negSucc m, .negSucc n => .negSucc (m ||| n)

theorem nat_xor_and (m n : Nat) : m ^^^ (m &&& n) = Nat.ldiff m n := by
  apply Nat.eq_of_testBit_eq
  intro i
  simp only [Nat.testBit_ldiff, Nat.testBit_xor, Nat.testBit_land]
  cases m.testBit i <;> cases n.testBit i <;> rfl

/-- `goAnd` agrees with Mathlib's two's-complement `Int.land`. -/
theorem goAnd_eq_land (a b : Int) : goAnd a b = Int.land a b := by
  cases a with
  | ofNat m =>
    cases b with
    | ofNat n => rfl
    | negSucc n =>
      show Int.ofNat (m ^^^ (m &&& n)) = Int.ofNat (Nat.ldiff m n)
      rw [nat_xor_and]
  | negSucc m =>
    cases b with
    | ofNat n =>
      show Int.ofNat (n ^^^ (n &&& m)) = Int.ofNat (Nat.ldiff n m)
      rw [nat_xor_and]
    | negSucc n => rfl

/-- `Nat` form of the bit-test/arithmetic bridge: bit `k` of `m` is set iff
the residue of `m` mod `2^(k+1)` is at least `2^k`. -/
theorem natTestBit_iff (m k : Nat) : m.testBit k = true ↔ 2 ^ k ≤ m % 2 ^ (k + 1) := by
  have h1 : m % (2 ^ k * 2) / 2 ^ k = m / 2 ^ k % 2 := Nat.mod_mul_right_div_self m (2 ^ k) 2
  have hpos : 0 < 2 ^ k := Nat.pos_pow_of_pos k (by norm_num)
  rw [Nat.testBit_to_div_mod, show (2 : Nat) ^ (k + 1) = 2 ^ k * 2 from by ring, ← h1]
  have hlt : m % (2 ^ k * 2) < 2 ^ k * 2 := Nat.mod_lt _ (by positivity)
  have hdm := Nat.div_add_mod (m % (2 ^ k * 2)) (2 ^ k)
  have hrm : m % (2 ^ k * 2) % 2 ^ k < 2 ^ k := Nat.mod_lt _ hpos
  have hub : m % (2 ^ k * 2) / 2 ^ k < 2 := Nat.div_lt_of_lt_mul hlt
  generalize hA : m % (2 ^ k * 2) = A at hlt hdm hrm hub ⊢
  generalize hB : A % 2 ^ k = B at hdm hrm
  generalize hD : A / 2 ^ k = D at hdm hub ⊢
  simp only [decide_eq_true_eq]
  have hD2 : D = 0 ∨ D = 1 := by omega
  rcases hD2 with rfl | rfl
  · rw [Nat.mul_zero, Nat.zero_add] at hdm
    omega
  · rw [Nat.mul_one] at hdm
    omega

/-- `Int.emod` of a negative successor: `-(m+1) % q = q - 1 - m % q` for `q > 0`. -/
theorem negSucc_emod (m : Nat) (q : Int) (hq : 0 < q) :
    (Int.negSucc m) % q = q - 1 - (m : Int) % q := by
  have hm : (Int.negSucc m) = -((m : Int) + 1) := rfl
  have hr0 : (0 : Int) ≤ q - 1 - (m : Int) % q := by
    have := Int.emod_lt_of_pos (m : Int) hq
    omega
  have hr1 : q - 1 - (m : Int) % q < q := by
    have := Int.emod_nonneg (m : Int) (by omega : q ≠ 0)
    omega
  have key : (Int.negSucc m) % q = (q - 1 - (m : Int) % q) % q := by
    rw [Int.emod_eq_emod_iff_emod_sub_eq_zero]
    rw [show Int.negSucc m - (q - 1 - (m : Int) % q) =
        ((m : Int) % q - (m : Int)) - q from by rw [hm]; ring]
    rw [show (m : Int) % q - (m : Int) = -(q * ((m : Int) / q)) from by rw [Int.emod_def]; ring]
    apply Int.emod_eq_zero_of_dvd
    exact dvd_sub (dvd_neg.mpr (dvd_mul_right q _)) (dvd_refl q)
  rw [key, Int.emod_eq_of_lt hr0 hr1]

/-- Bit `k` of an integer (two's complement) read off from `emod`. -/
theorem intTestBit_iff (x : Int) (k : Nat) :
    Int.testBit x k = true ↔ (2 ^ k : Int) ≤ x % 2 ^ (k + 1) := by
  have hpos : (0 : Int) < 2 ^ (k + 1) := by positivity
  have hcast : ∀ m : Nat, ((m : Nat) : Int) % (2 ^ (k + 1) : Int) = ((m % 2 ^ (k + 1) : Nat) : Int) :=
    fun m => by push_cast; rfl
  cases x with
  | ofNat m =>
    show Nat.testBit m k = true ↔ (2 ^ k : Int) ≤ (m : Int) % 2 ^ (k + 1)
    rw [natTestBit_iff, hcast]
    exact_mod_cast Iff.rfl
  | negSucc m =>
    show (!(Nat.testBit m k)) = true ↔ (2 ^ k : Int) ≤ Int.negSucc m % 2 ^ (k + 1)
    rw [negSucc_emod m _ hpos, hcast]
    have hnat := natTestBit_iff m k
    have hml : m % 2 ^ (k + 1) < 2 ^ (k + 1) := Nat.mod_lt _ (by positivity)
    have hp2 : (2 : Int) ^ (k + 1) = 2 * 2 ^ k := by ring
    cases hb : Nat.testBit m k with
    | false =>
      rw [hb] at hnat
      simp only [Bool.false_eq_true, false_iff, not_le] at hnat
      have hc : ((m % 2 ^ (k + 1) : Nat) : Int) < (2 ^ k : Int) := by exact_mod_cast hnat
      have hc2 : (0 : Int) ≤ ((m % 2 ^ (k + 1) : Nat) : Int) := by positivity
      simp only [Bool.not_false, true_iff]
      omega
    | true =>
      rw [hb] at hnat
      have hge : (2 ^ k : Nat) ≤ m % 2 ^ (k + 1) := hnat.mp rfl
      have hc : (2 ^ k : Int) ≤ ((m % 2 ^ (k + 1) : Nat) : Int) := by exact_mod_cast hge
      have hc3 : ((m % 2 ^ (k + 1) : Nat) : Int) < (2 ^ (k + 1) : Int) := by exact_mod_cast hml
      simp only [Bool.not_true, Bool.false_eq_true, false_iff, not_le]
      omega

/-- `goAnd` against a power of two isolates one bit. -/
theorem goAnd_two_pow (x : Int) (k : Nat) :
    goAnd x (2 ^ k) = if (2 ^ k : Int) ≤ x % 2 ^ (k + 1) then 2 ^ k else 0 := by
  have hpowcast : ((2 ^ k : Nat) : Int) = (2 ^ k : Int) := by push_cast; rfl
  by_cases hc : (2 ^ k : Int) ≤ x % 2 ^ (k + 1)
  · rw [if_pos hc]
    have hb : Int.testBit x k = true := (intTestBit_iff x k).mpr hc
    cases x with
    | ofNat m =>
      have hbm : Nat.testBit m k = true := hb
      rw [← hpowcast]
      show Int.ofNat (m &&& 2 ^ k) = ((2 ^ k : Nat) : Int)
      rw [Nat.and_two_pow, hbm]
      simp
    | negSucc m =>
      have hbm : Nat.testBit m k = false := by
        have hb2 : (!(Nat.testBit m k)) = true := hb
        cases h : Nat.testBit m k
        · rfl
        · rw [h] at hb2; cases hb2
      rw [← hpowcast]
      show Int.ofNat (2 ^ k ^^^ (2 ^ k &&& m)) = ((2 ^ k : Nat) : Int)
      rw [Nat.land_comm, Nat.and_two_pow, hbm]
      simp
  · rw [if_neg hc]
    have hb : Int.testBit x k = false := by
      cases h : Int.testBit x k
      · rfl
      · exact absurd ((intTestBit_iff x k).mp h) hc
    cases x with
    | ofNat m =>
      have hbm : Nat.testBit m k = false := hb
      rw [← hpowcast]
      show Int.ofNat (m &&& 2 ^ k) = 0
      rw [Nat.and_two_pow, hbm]
      simp
    | negSucc m =>
      have hbm : Nat.testBit m k = true := by
        have hb2 : (!(Nat.testBit m k)) = false := hb
        cases h : Nat.testBit m k
        · rw [h] at hb2; cases hb2
        · rfl
      rw [← hpowcast]
      show Int.ofNat (2 ^ k ^^^ (2 ^ k &&& m)) = 0
      rw [Nat.land_comm, Nat.and_two_pow, hbm]
      simp

/-- The form used by the Hilbert loops: `(v & i) > 0` with `i = 2^k`. -/
theorem goAnd_two_pow_pos (x : Int) (k : Nat) :
    0 < goAnd x (2 ^ k) ↔ (2 ^ k : Int) ≤ x % 2 ^ (k + 1) := by
  rw [goAnd_two_pow]
  by_cases h : (2 ^ k : Int) ≤ x % 2 ^ (k + 1)
  · rw [if_pos h]
    exact iff_of_true (by positivity) h
  · rw [if_neg h]
    exact iff_of_false (lt_irrefl 0) h

/-! ## hilbert.go -/

/-- `type hilbert struct { edgeLength int }` -/
structure hilbert where
  edgeLength : Int
deriving DecidableEq

/-- `func b2i(b bool) int` -/
def b2i (b : Bool) : Int := if b then 1 else 0

/-- `func (s *hilbert) rotate(edgeLength, x, y int, rx, ry bool) (int, int)`.
The receiver is unused in the source, so the rotation is modelled as a free
function.  When `ry` is false: if `rx`, reflect both coordinates about
`edgeLength - 1`; then swap `x` and `y`. -/
def rotate (edgeLength x y : Int) (rx ry : Bool) : Int × Int :=
  if !ry then
    if rx then (edgeLength - 1 - y, edgeLength - 1 - x) else (y, x)
  else
    (x, y)

/-- The loop of `func (s *hilbert) distanceAlongCurveToPoint(t int)`:
`for i := int(1); i < s.edgeLength; i = i * 2 { ... }` over state `(x, y, t)`.
`fuel` bounds the iteration count; the guard `i < s.edgeLength` is checked
each step exactly as in the source.  Returns the full final state. -/
def hilbert.mapLoop (s : hilbert) : Nat → Int → Int → Int → Int → (Int × Int) × Int
  | 0, x, y, t, _i => ((x, y), t)
  | fuel + 1, x, y, t, i =>
    if i < s.edgeLength then
      let rx : Bool := goAnd t 2 == 2
      let ry : Bool := goAnd t 1 == 1
      let ry : Bool := if rx then !ry else ry
      let p := rotate i x y rx ry
      let x : Int := if rx then p.1 + i else p.1
      let y : Int := if ry then p.2 + i else p.2
      s.mapLoop fuel x y (t.tdiv 4) (i * 2)
    else ((x, y), t)

/-- `func (s *hilbert) distanceAlongCurveToPoint(t int) (x, y int, err error)`.
Maps a distance `t ∈ [0, edgeLength²)` to coordinates on the curve. -/
def hilbert.distanceAlongCurveToPoint (s : hilbert) (fuel : Nat) (t : Int) :
    Except String (Int × Int) :=
  if t < 0 ∨ t ≥ s.edgeLength * s.edgeLength then
    .error "hilbert Map(t) value is out of range"
  else
    .ok (s.mapLoop fuel 0 0 t 1).1

/-- The loop of `func (s *hilbert) pointToDistanceAlongCurve(x, y int)`:
`for i := s.edgeLength / 2; i > 0; i = i / 2 { ... }` over state `(x, y, t)`.
Returns the full final state. -/
def hilbert.mapInverseLoop (s : hilbert) : Nat → Int → Int → Int → Int → Int × (Int × Int)
  | 0, x, y, t, _i => (t, (x, y))
  | fuel + 1, x, y, t, i =>
    if i > 0 then
      let rx : Bool := goAnd x i > 0
      let ry : Bool := goAnd y i > 0
      let a : Int := if rx then 3 else 0
      let t : Int := t + i * i * (Int.xor a (b2i ry))
      let p := rotate i x y rx ry
      s.mapInverseLoop fuel p.1 p.2 t (i.tdiv 2)
    else (t, (x, y))

/-- `func (s *hilbert) pointToDistanceAlongCurve(x, y int) (t int, err error)`.
Maps coordinates `x, y ∈ [0, edgeLength)` to a distance along the curve. -/
def hilbert.pointToDistanceAlongCurve (s : hilbert) (fuel : Nat) (x y : Int) :
    Except String Int :=
  if x < 0 ∨ x ≥ s.edgeLength ∨ y < 0 ∨ y ≥ s.edgeLength then
    .error "hilbert MapInverse(x,y) value is out of range"
  else
    .ok (s.mapInverseLoop fuel x y 0 (s.edgeLength.tdiv 2)).1

/-! ## spatial_index_2d.go -/

/-- `binary.BigEndian.PutUint32` into the first four entries of a byte slice. -/
def putUint32BigEndian (u : Nat) : List Nat :=
  [u / 2 ^ 24 % 256, u / 2 ^ 16 % 256, u / 2 ^ 8 % 256, u % 256]

/-- `binary.BigEndian.PutUint64` into a byte slice of length 8. -/
def putUint64BigEndian (u : Nat) : List Nat :=
  [u / 2 ^ 56 % 256, u / 2 ^ 48 % 256, u / 2 ^ 40 % 256, u / 2 ^ 32 % 256,
   u / 2 ^ 24 % 256, u / 2 ^ 16 % 256, u / 2 ^ 8 % 256, u % 256]

/-- Go `uint32(v)` / `uint64(v)`: reduce a signed integer into `[0, 2^w)`. -/
def toUintW (w : Nat) (v : Int) : Nat := (v % 2 ^ w).toNat

/-- `binary.BigEndian.Uint32(b[:4])` (bytes out of range of the slice read as 0,
which never happens on the 8-byte keys the index produces). -/
def uint32FromBigEndian (b : List Nat) : Nat :=
  b.getD 0 0 * 2 ^ 24 + b.getD 1 0 * 2 ^ 16 + b.getD 2 0 * 2 ^ 8 + b.getD 3 0

/-- `binary.BigEndian.Uint64(b[:8])`. -/
def uint64FromBigEndian (b : List Nat) : Nat :=
  b.getD 0 0 * 2 ^ 56 + b.getD 1 0 * 2 ^ 48 + b.getD 2 0 * 2 ^ 40 + b.getD 3 0 * 2 ^ 32 +
  b.getD 4 0 * 2 ^ 24 + b.getD 5 0 * 2 ^ 16 + b.getD 6 0 * 2 ^ 8 + b.getD 7 0

/-- Go `int(u)` for a `uint64` on the modelled 64-bit platform: two's complement. -/
def int64OfUint (u : Nat) : Int := if u < 2 ^ 63 then (u : Int) else (u : Int) - 2 ^ 64

/-- `type SpatialIndex2D struct { hilbert; integerBits int; edgeSizeBits int; ... }`.
The two byte-codec closures chosen in `NewSpatialIndex2D` are modelled by
`SpatialIndex2D.intToEightBytes` / `SpatialIndex2D.eightBytesToInt` below,
dispatching on `integerBits`. -/
structure SpatialIndex2D extends hilbert where
  integerBits : Int
  edgeSizeBits : Int
deriving DecidableEq

/-- The closure stored in `intToEightBytes`: for 32 bits,
`eightBytes := make([]byte, 8); binary.BigEndian.PutUint32(eightBytes, uint32(v))`
(so the value occupies the first four bytes and the last four stay zero);
for 64 bits, `binary.BigEndian.PutUint64(eightBytes, uint64(v))`. -/
def SpatialIndex2D.intToEightBytes (index : SpatialIndex2D) (v : Int) : List Nat :=
  if index.integerBits == 32 then
    putUint32BigEndian (toUintW 32 v) ++ [0, 0, 0, 0]
  else
    putUint64BigEndian (toUintW 64 v)

/-- The closure stored in `eightBytesToInt`: for 32 bits,
`int(binary.BigEndian.Uint32(eightBytes[:4]))`; for 64 bits,
`int(binary.BigEndian.Uint64(eightBytes[:8]))`. -/
def SpatialIndex2D.eightBytesToInt (index : SpatialIndex2D) (eightBytes : List Nat) : Int :=
  if index.integerBits == 32 then
    Int.ofNat (uint32FromBigEndian (eightBytes.take 4))
  else
    int64OfUint (uint64FromBigEndian (eightBytes.take 8))

/-- `bits.UintSize` on the modelled 64-bit platform. -/
def uintSize : Int := 64

/-- `func NewSpatialIndex2D(integerBits int) (*SpatialIndex2D, error)`.
`edgeSizeBits := (integerBits / 2) - 1` and `edgeLength = 1 << edgeSizeBits`. -/
def NewSpatialIndex2D (integerBits : Int) : Except String SpatialIndex2D :=
  if integerBits > uintSize then
    .error "can't create SpatialIndex2D, too many bits for this CPU"
  else if integerBits ≠ 32 ∧ integerBits ≠ 64 then
    .error "bit count not supported, please use 32 or 64 bit"
  else
    let edgeSizeBits := integerBits.tdiv 2 - 1
    .ok { edgeLength := 2 ^ edgeSizeBits.toNat
          integerBits := integerBits
          edgeSizeBits := edgeSizeBits }

/-- Bound on the iterations of the Hilbert loops for this index:
`edgeLength = 2^edgeSizeBits`, so each loop runs `edgeSizeBits` times. -/
def SpatialIndex2D.hilbertFuel (index : SpatialIndex2D) : Nat := index.edgeSizeBits.toNat

/-- `func (index *SpatialIndex2D) GetValidInputRange() (int, int)`:
`halfHilbertEdgeLength := 1 << (index.edgeSizeBits - 1)`. -/
def SpatialIndex2D.GetValidInputRange (index : SpatialIndex2D) : Int × Int :=
  let halfHilbertEdgeLength : Int := 2 ^ (index.edgeSizeBits - 1).toNat
  (-halfHilbertEdgeLength + 1, halfHilbertEdgeLength - 1)

/-- `func (index *SpatialIndex2D) GetOutputRange() ([]byte, []byte)`. -/
def SpatialIndex2D.GetOutputRange (index : SpatialIndex2D) : List Nat × List Nat :=
  (index.intToEightBytes 0, index.intToEightBytes (index.edgeLength * index.edgeLength))

/-- `func (index *SpatialIndex2D) GetIndexedPoint(x int, y int) ([]byte, error)`.
`index.edgeLength >> 1` is `edgeLength / 2`. -/
def SpatialIndex2D.GetIndexedPoint (index : SpatialIndex2D) (x y : Int) :
    Except String (List Nat) :=
  match index.tohilbert.pointToDistanceAlongCurve index.hilbertFuel
      (x + index.edgeLength.tdiv 2) (y + index.edgeLength.tdiv 2) with
  | .error e => .error e
  | .ok curvePoint => .ok (index.intToEightBytes curvePoint)

/-- `func (index *SpatialIndex2D) GetPositionFromIndexedPoint(indexedPoint []byte) (int, int, error)`. -/
def SpatialIndex2D.GetPositionFromIndexedPoint (index : SpatialIndex2D)
    (indexedPoint : List Nat) : Except String (Int × Int) :=
  if indexedPoint.length < 8 then
    .error "GetPositionFromIndexedPoint requires at least 8 bytes"
  else
    match index.tohilbert.distanceAlongCurveToPoint index.hilbertFuel
        (index.eightBytesToInt indexedPoint) with
    | .error e => .error e
    | .ok (x, y) => .ok (x - index.edgeLength.tdiv 2, y - index.edgeLength.tdiv 2)

/-- `type ByteRange struct { Start []byte; End []byte }` -/
structure ByteRange where
  Start : List Nat
  End : List Nat
deriving DecidableEq

/-- Result of `RectangleToIndexedRanges`: a Go runtime panic
(out-of-range slice index or negative `make` length), a returned error, or a
returned slice of ranges.  `fuelOut` is a model artifact: the iteration bound
given to the downsampling loop was exhausted (never happens with the bound
used, see `downsampleLoop_ok`). -/
inductive GoResult (α : Type) where
  | panicked : GoResult α
  | fuelOut : GoResult α
  | errored : String → GoResult α
  | ok : α → GoResult α
deriving DecidableEq

/-- Go's `int` on the 64-bit platform (the only one on which the 64-bit
codec can be constructed): arithmetic wraps to `[-2^63, 2^63)` in
two's complement.  Additions and halvings in `RectangleToIndexedRanges`
stay within that window at every input, but the products `width*height`
can leave it, so the two places the source multiplies the dimensions
(the loop guard on line 143 and the `make` length on line 208, whose
value also feeds the merge threshold on line 225) wrap through `goInt64`. -/
def goInt64 (v : Int) : Int := (v + 2 ^ 63) % 2 ^ 64 - 2 ^ 63

/-- Lines 142-174: the adaptive-downsampling loop
`for width*height > 128 { ... }` over state `(x, y, width, height, reducedBits)`,
the product taken in Go's wrapping `int` arithmetic.
Note the source computes `halfHeight := width / 2` (not `height / 2`) and
contains the width-halving block twice. -/
def downsampleLoop : Nat → Int → Int → Int → Int → Nat → Option (Int × Int × Int × Int × Nat)
  | 0, _, _, _, _, _ => none
  | fuel + 1, x, y, width, height, reducedBits =>
    if goInt64 (width * height) > 128 then
      let halfX := x.tdiv 2
      let x := if halfX ≠ 0 then halfX + x.tmod halfX else 0
      let halfY := y.tdiv 2
      let y := if halfY ≠ 0 then halfY + y.tmod halfY else 0
      let halfWidth := width.tdiv 2
      let halfHeight := width.tdiv 2
      let width := if halfWidth ≠ 0 then halfWidth + width.tmod halfWidth else 1
      let width := if halfWidth ≠ 0 then halfWidth + width.tmod halfWidth else 1
      let height := if halfHeight ≠ 0 then halfHeight + height.tmod halfHeight else 1
      downsampleLoop fuel x y width height (reducedBits + 1)
    else
      some (x, y, width, height, reducedBits)

/-- Iteration bound for `downsampleLoop`; proved sufficient for positive
rectangles in `downsampleLoop_ok`. -/
def downsampleFuel (width height : Int) : Nat := 2 * width.natAbs + height.natAbs + 4

/-- Lines 186-205: grow the reduced rectangle by one cell on each side
(twice on the right/bottom) where the reduced grid boundary allows. -/
def edgeCorrections (reducedHilbertPlaneEdgeLength x y width height : Int) :
    Int × Int × Int × Int :=
  let x := if x > 0 then x - 1 else x
  let y := if y > 0 then y - 1 else y
  let width := if x + width < reducedHilbertPlaneEdgeLength then width + 1 else width
  let width := if x + width < reducedHilbertPlaneEdgeLength then width + 1 else width
  let height := if y + height < reducedHilbertPlaneEdgeLength then height + 1 else height
  let height := if y + height < reducedHilbertPlaneEdgeLength then height + 1 else height
  (x, y, width, height)

/-- `curvePoints[idx] = d`: Go panics when the index is out of range. -/
def setChecked (l : List Int) (idx : Int) (v : Int) : Option (List Int) :=
  if 0 ≤ idx ∧ idx.toNat < l.length then some (l.set idx.toNat v) else none

/-- Inner sampling loop `for j := 0; j < height; j++` (runs `height.toNat`
times, with `j` counting up from 0), filling `curvePoints[j*width+i]`. -/
def sampleInner (downsampledCurve : hilbert) (fuel : Nat) (x y width : Int) (i : Int) :
    Nat → Int → List Int → GoResult (List Int)
  | 0, _j, curvePoints => .ok curvePoints
  | n + 1, j, curvePoints =>
    match downsampledCurve.pointToDistanceAlongCurve fuel
        (x + i + downsampledCurve.edgeLength.tdiv 2)
        (y + j + downsampledCurve.edgeLength.tdiv 2) with
    | .error e => .errored e
    | .ok d =>
      match setChecked curvePoints (j * width + i) d with
      | none => .panicked
      | some curvePoints => sampleInner downsampledCurve fuel x y width i n (j + 1) curvePoints

/-- Outer sampling loop `for i := 0; i < width; i++` (runs `width.toNat` times). -/
def sampleOuter (downsampledCurve : hilbert) (fuel : Nat) (x y width height : Int) :
    Nat → Int → List Int → GoResult (List Int)
  | 0, _i, curvePoints => .ok curvePoints
  | n + 1, i, curvePoints =>
    match sampleInner downsampledCurve fuel x y width i height.toNat 0 curvePoints with
    | .panicked => .panicked
    | .fuelOut => .fuelOut
    | .errored e => .errored e
    | .ok curvePoints => sampleOuter downsampledCurve fuel x y width height n (i + 1) curvePoints

/-- The comparison `float32(distance) > float32(width*height)*iopsCostParam`
with the cost parameter `p = pNum / pDen` (`pDen > 0`) in exact arithmetic:
`distance > wh * (pNum / pDen)  ↔  distance * pDen > wh * pNum`.
`splitGap_iff_rat` below proves this is the exact rational comparison;
float32 rounding is abstracted. -/
def splitGap (wh distance pNum pDen : Int) : Bool := distance * pDen > wh * pNum

/-- Lines 222-230: the greedy merge over the sorted distances.  The Go loop
walks `curvePoints[1:]`, closing the open range (whose start is `start` and
whose running end is `prev`, the previous element) whenever the gap exceeds
the threshold, and finally closes the last range at the last element. -/
def mergeLoop (wh pNum pDen : Int) : Int → Int → List Int → List (Int × Int)
  | start, prev, [] => [(start, prev)]
  | start, prev, c :: rest =>
    if splitGap wh (c - prev) pNum pDen then
      (start, prev) :: mergeLoop wh pNum pDen c c rest
    else
      mergeLoop wh pNum pDen start c rest

/-- Lines 142-220 of `RectangleToIndexedRanges`: downsampling, the
too-large check, edge corrections, exhaustive sampling
(`curvePoints := make([]int, width*height)`, the length being the wrapped
`int` product, panics for a negative length) and `sort.Ints(curvePoints)`
(modelled as insertion sort: the code only relies on the result being the
ascending reordering).  Returns the sorted distances together with the
wrapped product `width*height` (the corrected cell count used by the merge
threshold) and `reducedBits`.  This prefix of the function does not depend
on `iopsCostParam`. -/
def rtirSamples (index : SpatialIndex2D) (x y width height : Int) :
    GoResult (List Int × Int × Nat) :=
  match downsampleLoop (downsampleFuel width height) x y width height 0 with
  | none => .fuelOut
  | some (x, y, width, height, reducedBits) =>
    if index.edgeSizeBits - (reducedBits : Int) < 3 then
      .errored "RectangleToIndexedRanges(): rectangle is too large, unable to downsample it to a reasonable size."
    else
      let reducedHilbertPlaneEdgeLength : Int := 2 ^ (index.edgeSizeBits - (reducedBits : Int)).toNat
      let c := if reducedBits > 0 then
          edgeCorrections reducedHilbertPlaneEdgeLength x y width height
        else (x, y, width, height)
      match c with
      | (x, y, width, height) =>
        let downsampledCurve : hilbert := { edgeLength := reducedHilbertPlaneEdgeLength }
        let fuel := (index.edgeSizeBits - (reducedBits : Int)).toNat
        if goInt64 (width * height) < 0 then .panicked
        else
          match sampleOuter downsampledCurve fuel x y width height width.toNat 0
              (List.replicate (goInt64 (width * height)).toNat 0) with
          | .panicked => .panicked
          | .fuelOut => .fuelOut
          | .errored e => .errored e
          | .ok curvePoints =>
            .ok (curvePoints.insertionSort (· ≤ ·), goInt64 (width * height), reducedBits)

/-- Lines 222-251 of `RectangleToIndexedRanges` (with the cost parameter
split into numerator and denominator): the access `curvePoints[0]` (a panic
on an empty slice), the greedy merge, and the rescaling
`startCurvePoint := intRange[0] << (reducedBits * 2)` — modelled as
multiplication by `2^(reducedBits*2)` — plus byte encoding of each bound. -/
def rtirCore (index : SpatialIndex2D) (x y width height : Int) (pNum pDen : Int) :
    GoResult (List ByteRange) :=
  match rtirSamples index x y width height with
  | .panicked => .panicked
  | .fuelOut => .fuelOut
  | .errored e => .errored e
  | .ok (curvePoints, wh, reducedBits) =>
    match curvePoints with
    | [] => .panicked
    | c0 :: rest =>
      let ranges := mergeLoop wh pNum pDen c0 c0 rest
      .ok (ranges.map fun r =>
        { Start := index.intToEightBytes (r.1 * 2 ^ (reducedBits * 2))
          End := index.intToEightBytes (r.2 * 2 ^ (reducedBits * 2)) })

/-- `RectangleToIndexedRanges` with the iops cost parameter as an exact
rational. -/
def SpatialIndex2D.RectangleToIndexedRanges (index : SpatialIndex2D)
    (x y width height : Int) (iopsCostParam : ℚ) : GoResult (List ByteRange) :=
  rtirCore index x y width height iopsCostParam.num (iopsCostParam.den : Int)

/-! ## Proof infrastructure: structural versions of the Hilbert loops

`mapLoop` runs over scales `i = 1, 2, 4, …` and `mapInverseLoop` over
`i = edgeLength/2, …, 2, 1`.  For `edgeLength = 2^n` both run exactly `n`
iterations; the following structural recursions compute the same values and
are the vehicles for induction on `n`. -/

/-- One iteration body of `mapLoop` at scale `i`. -/
def mapStep (i x y t : Int) : (Int × Int) × Int :=
  let rx : Bool := goAnd t 2 == 2
  let ry : Bool := goAnd t 1 == 1
  let ry : Bool := if rx then !ry else ry
  let p := rotate i x y rx ry
  ((if rx then p.1 + i else p.1, if ry then p.2 + i else p.2), t.tdiv 4)

/-- One iteration body of `mapInverseLoop` at scale `i`. -/
def invStep (i x y t : Int) : Int × (Int × Int) :=
  let rx : Bool := goAnd x i > 0
  let ry : Bool := goAnd y i > 0
  let a : Int := if rx then 3 else 0
  (t + i * i * (Int.xor a (b2i ry)), rotate i x y rx ry)

/-- `mapInverseLoop` accumulated from `t = 0`, for `edgeLength = 2^n`:
`invRec n x y` is the distance of `(x, y)` at curve order `n`. -/
def invRec : Nat → Int → Int → Int
  | 0, _, _ => 0
  | n + 1, x, y =>
    (invStep (2 ^ n) x y 0).1 +
      invRec n (invStep (2 ^ n) x y 0).2.1 (invStep (2 ^ n) x y 0).2.2

/-- `mapLoop` coordinates for `edgeLength = 2^n`: `fwdRec n t` is the point
of distance `t` at curve order `n`. -/
def fwdRec : Nat → Int → Int × Int
  | 0, _ => (0, 0)
  | n + 1, t => (mapStep (2 ^ n) (fwdRec n t).1 (fwdRec n t).2 (t.tdiv (4 ^ n))).1

theorem int_two_pow_pos (k : Nat) : (0 : Int) < 2 ^ k := by positivity

theorem int_two_pow_lt {k m : Nat} (h : k < m) : (2 : Int) ^ k < 2 ^ m := by
  have hn : (2 : Nat) ^ k < 2 ^ m := Nat.pow_lt_pow_right (by norm_num) h
  exact_mod_cast hn

theorem mapLoop_body (s : hilbert) (fuel : Nat) (x y t i : Int) (h : i < s.edgeLength) :
    s.mapLoop (fuel + 1) x y t i =
      s.mapLoop fuel (mapStep i x y t).1.1 (mapStep i x y t).1.2 (mapStep i x y t).2 (i * 2) := by
  simp only [hilbert.mapLoop, mapStep, if_pos h]

theorem mapLoop_stop (s : hilbert) (fuel : Nat) (x y t i : Int) (h : ¬ i < s.edgeLength) :
    s.mapLoop fuel x y t i = ((x, y), t) := by
  cases fuel with
  | zero => rfl
  | succ fuel => simp only [hilbert.mapLoop, if_neg h]

theorem invLoop_body (s : hilbert) (fuel : Nat) (x y t i : Int) (h : i > 0) :
    s.mapInverseLoop (fuel + 1) x y t i =
      s.mapInverseLoop fuel (invStep i x y t).2.1 (invStep i x y t).2.2
        (invStep i x y t).1 (i.tdiv 2) := by
  simp only [hilbert.mapInverseLoop, invStep, if_pos h]

theorem invLoop_stop (s : hilbert) (fuel : Nat) (x y t i : Int) (h : ¬ i > 0) :
    s.mapInverseLoop fuel x y t i = (t, (x, y)) := by
  cases fuel with
  | zero => rfl
  | succ fuel => simp only [hilbert.mapInverseLoop, if_neg h]

theorem invStep_fst (i x y t : Int) : (invStep i x y t).1 = t + (invStep i x y 0).1 := by
  simp only [invStep]
  ring

theorem invStep_snd (i x y t : Int) : (invStep i x y t).2 = (invStep i x y 0).2 := rfl

/-- The accumulator of `mapInverseLoop` is additive in its starting value. -/
theorem invLoop_add (s : hilbert) :
    ∀ (fuel : Nat) (x y t i : Int),
      (s.mapInverseLoop fuel x y t i).1 = t + (s.mapInverseLoop fuel x y 0 i).1 := by
  intro fuel
  induction fuel with
  | zero => intro x y t i; simp [hilbert.mapInverseLoop]
  | succ fuel ih =>
    intro x y t i
    by_cases h : i > 0
    · rw [invLoop_body s fuel x y t i h, invLoop_body s fuel x y 0 i h]
      rw [ih, ih (invStep i x y 0).2.1]
      rw [invStep_fst i x y t, invStep_fst i x y 0, invStep_snd i x y t]
      ring
    · rw [invLoop_stop s _ x y t i h, invLoop_stop s _ x y 0 i h]
      simp

/-- Running `mapInverseLoop` from scale `2^k` computes `invRec (k+1)`. -/
theorem invLoop_eq_invRec (s : hilbert) :
    ∀ (k fuel : Nat), k + 1 ≤ fuel → ∀ x y t : Int,
      (s.mapInverseLoop fuel x y t (2 ^ k)).1 = t + invRec (k + 1) x y := by
  intro k
  induction k with
  | zero =>
    intro fuel hfuel x y t
    obtain ⟨f, rfl⟩ : ∃ f, fuel = f + 1 := ⟨fuel - 1, by omega⟩
    rw [invLoop_body s f x y t _ (by norm_num)]
    rw [show ((2 : Int) ^ 0).tdiv 2 = 0 from by decide]
    rw [invLoop_stop s f _ _ _ 0 (by norm_num)]
    show (invStep (2 ^ 0) x y t).1 = t + invRec 1 x y
    rw [invStep_fst]
    show t + (invStep (2 ^ 0) x y 0).1 = t + ((invStep (2 ^ 0) x y 0).1 + invRec 0 _ _)
    show t + (invStep (2 ^ 0) x y 0).1 = t + ((invStep (2 ^ 0) x y 0).1 + 0)
    ring
  | succ k ih =>
    intro fuel hfuel x y t
    obtain ⟨f, rfl⟩ : ∃ f, fuel = f + 1 := ⟨fuel - 1, by omega⟩
    rw [invLoop_body s f x y t _ (int_two_pow_pos (k + 1))]
    rw [show ((2 : Int) ^ (k + 1)).tdiv 2 = 2 ^ k from by
      rw [pow_succ]
      exact Int.mul_tdiv_cancel _ (by norm_num)]
    rw [ih f (by omega)]
    rw [invStep_fst, invStep_snd]
    show t + (invStep (2 ^ (k + 1)) x y 0).1 + invRec (k + 1) _ _ =
      t + ((invStep (2 ^ (k + 1)) x y 0).1 + invRec (k + 1) _ _)
    ring

/-- `pointToDistanceAlongCurve` on a `2^n` curve with in-range coordinates
returns `invRec n x y`. -/
theorem pointToDistance_eq_invRec (n fuel : Nat) (hfuel : n ≤ fuel) (x y : Int)
    (hx0 : 0 ≤ x) (hx1 : x < 2 ^ n) (hy0 : 0 ≤ y) (hy1 : y < 2 ^ n) :
    hilbert.pointToDistanceAlongCurve ⟨2 ^ n⟩ fuel x y = .ok (invRec n x y) := by
  have hguard : ¬ (x < 0 ∨ x ≥ (⟨2 ^ n⟩ : hilbert).edgeLength ∨ y < 0 ∨
      y ≥ (⟨2 ^ n⟩ : hilbert).edgeLength) := by
    push_neg
    exact ⟨by omega, hx1, by omega, hy1⟩
  rw [hilbert.pointToDistanceAlongCurve, if_neg hguard]
  cases n with
  | zero =>
    rw [show ((⟨2 ^ 0⟩ : hilbert).edgeLength).tdiv 2 = 0 from by decide]
    rw [invLoop_stop _ fuel x y 0 0 (by norm_num)]
    rfl
  | succ n =>
    rw [show ((⟨2 ^ (n + 1)⟩ : hilbert).edgeLength).tdiv 2 = 2 ^ n from by
      show ((2 : Int) ^ (n + 1)).tdiv 2 = 2 ^ n
      rw [pow_succ]
      exact Int.mul_tdiv_cancel _ (by norm_num)]
    rw [invLoop_eq_invRec _ n fuel hfuel x y 0]
    rw [zero_add]

/-- Peeling the last iteration off `mapLoop`: at edge `2^(n+1)` the loop is
the loop at edge `2^n` followed by one `mapStep` at scale `2^n`. -/
theorem mapLoop_peel (n : Nat) :
    ∀ (d k fuel : Nat) (x y t : Int), k + d = n + 1 → d ≤ fuel → 1 ≤ d →
      hilbert.mapLoop ⟨2 ^ (n + 1)⟩ fuel x y t (2 ^ k) =
        (fun st : (Int × Int) × Int => mapStep (2 ^ n) st.1.1 st.1.2 st.2)
          (hilbert.mapLoop ⟨2 ^ n⟩ fuel x y t (2 ^ k)) := by
  intro d
  induction d with
  | zero => intro k fuel x y t _ _ h1; omega
  | succ d ih =>
    intro k fuel x y t hkd hdf _
    obtain ⟨f, rfl⟩ : ∃ f, fuel = f + 1 := ⟨fuel - 1, by omega⟩
    cases d with
    | zero =>
      have hk : k = n := by omega
      subst hk
      rw [mapLoop_body _ f x y t _ (show (2 : Int) ^ k < (⟨2 ^ (k + 1)⟩ : hilbert).edgeLength
        from int_two_pow_lt (by omega))]
      rw [show (2 : Int) ^ k * 2 = 2 ^ (k + 1) from (pow_succ 2 k).symm]
      rw [mapLoop_stop _ f _ _ _ _ (show ¬ (2 : Int) ^ (k + 1) <
        (⟨2 ^ (k + 1)⟩ : hilbert).edgeLength from lt_irrefl _)]
      rw [mapLoop_stop _ (f + 1) x y t _ (show ¬ (2 : Int) ^ k <
        (⟨2 ^ k⟩ : hilbert).edgeLength from lt_irrefl _)]
    | succ d =>
      have hklt : k < n := by omega
      rw [mapLoop_body _ f x y t _ (show (2 : Int) ^ k < (⟨2 ^ (n + 1)⟩ : hilbert).edgeLength
        from int_two_pow_lt (by omega))]
      rw [mapLoop_body (⟨2 ^ n⟩ : hilbert) f x y t _ (show (2 : Int) ^ k <
        (⟨2 ^ n⟩ : hilbert).edgeLength from int_two_pow_lt (by omega))]
      rw [show (2 : Int) ^ k * 2 = 2 ^ (k + 1) from (pow_succ 2 k).symm]
      exact ih (k + 1) f _ _ _ (by omega) (by omega) (by omega)

theorem tdiv_pow_succ (t : Int) (h : 0 ≤ t) (n : Nat) :
    (t.tdiv ((4 : Int) ^ n)).tdiv 4 = t.tdiv ((4 : Int) ^ (n + 1)) := by
  obtain ⟨u, rfl⟩ := Int.eq_ofNat_of_zero_le h
  have h4 : ((4 : Int) ^ n) = Int.ofNat (4 ^ n) := by exact_mod_cast rfl
  have h4' : ((4 : Int) ^ (n + 1)) = Int.ofNat (4 ^ (n + 1)) := by exact_mod_cast rfl
  rw [h4, h4']
  show Int.ofNat (u / 4 ^ n / 4) = Int.ofNat (u / 4 ^ (n + 1))
  rw [Nat.div_div_eq_div_mul, ← pow_succ]

/-- `mapLoop` from scale 1 on a `2^n` curve computes `fwdRec` and divides the
distance by `4^n`. -/
theorem mapLoop_eq_fwdRec :
    ∀ (n fuel : Nat), n ≤ fuel → ∀ t : Int, 0 ≤ t →
      hilbert.mapLoop ⟨2 ^ n⟩ fuel 0 0 t 1 = (fwdRec n t, t.tdiv ((4 : Int) ^ n)) := by
  intro n
  induction n with
  | zero =>
    intro fuel _ t ht
    rw [mapLoop_stop _ fuel 0 0 t 1 (by norm_num)]
    rw [show fwdRec 0 t = (0, 0) from rfl]
    rw [show ((4 : Int) ^ 0) = 1 from by norm_num, Int.tdiv_one]
  | succ n ih =>
    intro fuel hfuel t ht
    have hpeel := mapLoop_peel n (n + 1) 0 fuel 0 0 t (by omega) hfuel (by omega)
    rw [show (2 : Int) ^ 0 = 1 from by norm_num] at hpeel
    rw [hpeel, ih fuel (by omega) t ht]
    show mapStep (2 ^ n) (fwdRec n t).1 (fwdRec n t).2 (t.tdiv ((4 : Int) ^ n)) =
      (fwdRec (n + 1) t, t.tdiv ((4 : Int) ^ (n + 1)))
    have hsnd : (mapStep (2 ^ n) (fwdRec n t).1 (fwdRec n t).2 (t.tdiv ((4 : Int) ^ n))).2 =
        t.tdiv ((4 : Int) ^ (n + 1)) := by
      show (t.tdiv ((4 : Int) ^ n)).tdiv 4 = _
      exact tdiv_pow_succ t ht n
    have hfst : (mapStep (2 ^ n) (fwdRec n t).1 (fwdRec n t).2 (t.tdiv ((4 : Int) ^ n))).1 =
        fwdRec (n + 1) t := rfl
    rw [← hfst, ← hsnd]

/-- `distanceAlongCurveToPoint` on a `2^n` curve with an in-range distance
returns `fwdRec n t`. -/
theorem distanceToPoint_eq_fwdRec (n fuel : Nat) (hfuel : n ≤ fuel) (t : Int)
    (h0 : 0 ≤ t) (h1 : t < 4 ^ n) :
    hilbert.distanceAlongCurveToPoint ⟨2 ^ n⟩ fuel t = .ok (fwdRec n t) := by
  have hsq : (⟨2 ^ n⟩ : hilbert).edgeLength * (⟨2 ^ n⟩ : hilbert).edgeLength = 4 ^ n := by
    show (2 : Int) ^ n * 2 ^ n = 4 ^ n
    rw [← mul_pow]
    norm_num
  have hguard : ¬ (t < 0 ∨ t ≥ (⟨2 ^ n⟩ : hilbert).edgeLength * (⟨2 ^ n⟩ : hilbert).edgeLength) := by
    push_neg
    rw [hsq]
    exact ⟨h0, h1⟩
  rw [hilbert.distanceAlongCurveToPoint, if_neg hguard]
  rw [mapLoop_eq_fwdRec n fuel hfuel t h0]

/-! ## Round-trip core: `fwdRec` and `invRec` are mutually inverse -/

theorem rotate_ff (i x y : Int) : rotate i x y false false = (y, x) := rfl

theorem rotate_tf (i x y : Int) : rotate i x y true false = (i - 1 - y, i - 1 - x) := rfl

theorem rotate_ft (i x y : Int) : rotate i x y false true = (x, y) := rfl

theorem rotate_tt (i x y : Int) : rotate i x y true true = (x, y) := rfl

theorem decide_rx_invariant (x a : Int) (n : Nat) :
    (decide (goAnd (x + a * 2 ^ (n + 1)) (2 ^ n) > 0)) = decide (goAnd x (2 ^ n) > 0) := by
  rw [decide_eq_decide]
  rw [show (goAnd (x + a * 2 ^ (n + 1)) (2 ^ n) > 0) ↔
      ((2 ^ n : Int) ≤ (x + a * 2 ^ (n + 1)) % 2 ^ (n + 1)) from goAnd_two_pow_pos _ n]
  rw [show (goAnd x (2 ^ n) > 0) ↔ ((2 ^ n : Int) ≤ x % 2 ^ (n + 1)) from goAnd_two_pow_pos _ n]
  rw [Int.add_mul_emod_self]

theorem decide_rx_of_range (x : Int) (n : Nat) (h0 : 0 ≤ x) (h1 : x < 2 ^ (n + 1)) :
    (decide (goAnd x (2 ^ n) > 0)) = decide ((2 ^ n : Int) ≤ x) := by
  rw [decide_eq_decide]
  rw [show (goAnd x (2 ^ n) > 0) ↔ ((2 ^ n : Int) ≤ x % 2 ^ (n + 1)) from goAnd_two_pow_pos _ n]
  rw [Int.emod_eq_of_lt h0 h1]

/-- Unfolded one-step form of `invRec`. -/
theorem invRec_succ (n : Nat) (x y : Int) :
    invRec (n + 1) x y =
      2 ^ n * 2 ^ n *
          (Int.xor (if decide (goAnd x (2 ^ n) > 0) then 3 else 0)
            (b2i (decide (goAnd y (2 ^ n) > 0)))) +
        invRec n
          (rotate (2 ^ n) x y (decide (goAnd x (2 ^ n) > 0)) (decide (goAnd y (2 ^ n) > 0))).1
          (rotate (2 ^ n) x y (decide (goAnd x (2 ^ n) > 0)) (decide (goAnd y (2 ^ n) > 0))).2 := by
  show (invStep (2 ^ n) x y 0).1 + _ = _
  simp only [invStep]
  rw [zero_add]

/-- `invRec n` only depends on `x, y` modulo `2^n`. -/
theorem invRec_invariant : ∀ (n : Nat) (x y a b : Int),
    invRec n (x + a * 2 ^ n) (y + b * 2 ^ n) = invRec n x y := by
  intro n
  induction n with
  | zero => intro x y a b; rfl
  | succ n ih =>
    intro x y a b
    rw [invRec_succ n (x + a * 2 ^ (n + 1)) (y + b * 2 ^ (n + 1)), invRec_succ n x y]
    rw [decide_rx_invariant x a n, decide_rx_invariant y b n]
    cases hx : decide (goAnd x (2 ^ n) > 0) <;> cases hy : decide (goAnd y (2 ^ n) > 0)
    · rw [rotate_ff, rotate_ff]
      rw [show y + b * 2 ^ (n + 1) = y + 2 * b * 2 ^ n from by ring,
          show x + a * 2 ^ (n + 1) = x + 2 * a * 2 ^ n from by ring]
      rw [ih y x (2 * b) (2 * a)]
    · rw [rotate_ft, rotate_ft]
      rw [show x + a * 2 ^ (n + 1) = x + 2 * a * 2 ^ n from by ring,
          show y + b * 2 ^ (n + 1) = y + 2 * b * 2 ^ n from by ring]
      rw [ih x y (2 * a) (2 * b)]
    · rw [rotate_tf, rotate_tf]
      rw [show 2 ^ n - 1 - (y + b * 2 ^ (n + 1)) = (2 ^ n - 1 - y) + -(2 * b) * 2 ^ n
            from by ring,
          show 2 ^ n - 1 - (x + a * 2 ^ (n + 1)) = (2 ^ n - 1 - x) + -(2 * a) * 2 ^ n
            from by ring]
      rw [ih (2 ^ n - 1 - y) (2 ^ n - 1 - x) (-(2 * b)) (-(2 * a))]
    · rw [rotate_tt, rotate_tt]
      rw [show x + a * 2 ^ (n + 1) = x + 2 * a * 2 ^ n from by ring,
          show y + b * 2 ^ (n + 1) = y + 2 * b * 2 ^ n from by ring]
      rw [ih x y (2 * a) (2 * b)]

/-- Distances computed by `invRec n` lie in `[0, 4^n)`. -/
theorem invRec_range : ∀ (n : Nat) (x y : Int),
    0 ≤ invRec n x y ∧ invRec n x y < 4 ^ n := by
  intro n
  induction n with
  | zero =>
    intro x y
    show (0 : Int) ≤ 0 ∧ (0 : Int) < 4 ^ 0
    norm_num
  | succ n ih =>
    intro x y
    rw [invRec_succ n x y]
    have hin := ih (rotate (2 ^ n) x y (decide (goAnd x (2 ^ n) > 0))
        (decide (goAnd y (2 ^ n) > 0))).1
      (rotate (2 ^ n) x y (decide (goAnd x (2 ^ n) > 0)) (decide (goAnd y (2 ^ n) > 0))).2
    have hsq : (2 : Int) ^ n * 2 ^ n = 4 ^ n := by
      rw [← mul_pow]; norm_num
    have h4 : (4 : Int) ^ (n + 1) = 4 * 4 ^ n := by ring
    have hxor : ∀ (rx ry : Bool),
        0 ≤ Int.xor (if rx then 3 else 0) (b2i ry) ∧
          Int.xor (if rx then 3 else 0) (b2i ry) ≤ 3 := by
      intro rx ry
      cases rx <;> cases ry <;> simp [b2i] <;> decide
    have h := hxor (decide (goAnd x (2 ^ n) > 0)) (decide (goAnd y (2 ^ n) > 0))
    rw [hsq]
    constructor
    · have : (0 : Int) ≤ 4 ^ n * Int.xor (if decide (goAnd x (2 ^ n) > 0) then 3 else 0)
          (b2i (decide (goAnd y (2 ^ n) > 0))) := by
        apply mul_nonneg (by positivity) h.1
      omega
    · have hm : (4 : Int) ^ n * Int.xor (if decide (goAnd x (2 ^ n) > 0) then 3 else 0)
          (b2i (decide (goAnd y (2 ^ n) > 0))) ≤ 4 ^ n * 3 := by
        apply mul_le_mul_of_nonneg_left h.2 (by positivity)
      omega

theorem goAnd_two (t : Int) : goAnd t 2 = if (2 : Int) ≤ t % 4 then 2 else 0 := by
  have h := goAnd_two_pow t 1
  norm_num at h
  exact h

theorem goAnd_one (t : Int) : goAnd t 1 = if (1 : Int) ≤ t % 2 then 1 else 0 := by
  have h := goAnd_two_pow t 0
  norm_num at h
  exact h

theorem mapStep_fst_congr (i x y t1 t2 : Int) (h2 : goAnd t1 2 = goAnd t2 2)
    (h1 : goAnd t1 1 = goAnd t2 1) : (mapStep i x y t1).1 = (mapStep i x y t2).1 := by
  simp only [mapStep, h2, h1]

/-- The four quadrant cases of the `mapLoop` body. -/
theorem mapStep_q0 (i x y : Int) : (mapStep i x y 0).1 = (y, x) := by
  simp only [mapStep,
    show (goAnd 0 2 == 2) = false from by decide,
    show (goAnd 0 1 == 1) = false from by decide]
  simp [rotate]

theorem mapStep_q1 (i x y : Int) : (mapStep i x y 1).1 = (x, y + i) := by
  simp only [mapStep,
    show (goAnd 1 2 == 2) = false from by decide,
    show (goAnd 1 1 == 1) = true from by decide]
  simp [rotate]

theorem mapStep_q2 (i x y : Int) : (mapStep i x y 2).1 = (x + i, y + i) := by
  simp only [mapStep,
    show (goAnd 2 2 == 2) = true from by decide,
    show (goAnd 2 1 == 1) = false from by decide]
  simp [rotate]

theorem mapStep_q3 (i x y : Int) : (mapStep i x y 3).1 = (i - 1 - y + i, i - 1 - x) := by
  simp only [mapStep,
    show (goAnd 3 2 == 2) = true from by decide,
    show (goAnd 3 1 == 1) = true from by decide]
  simp [rotate]

/-- `fwdRec n` only depends on `t` modulo `4^n` (for nonnegative values). -/
theorem fwdRec_invariant : ∀ (n : Nat) (t c : Int), 0 ≤ t → 0 ≤ t + c * 4 ^ n →
    fwdRec n (t + c * 4 ^ n) = fwdRec n t := by
  intro n
  induction n with
  | zero => intro t c _ _; rfl
  | succ n ih =>
    intro t c h0 h1
    have hinner : fwdRec n (t + c * 4 ^ (n + 1)) = fwdRec n t := by
      rw [show t + c * 4 ^ (n + 1) = t + 4 * c * 4 ^ n from by ring]
      exact ih t (4 * c) h0 (by
        rw [show t + 4 * c * 4 ^ n = t + c * 4 ^ (n + 1) from by ring]
        exact h1)
    have htq : (t + c * 4 ^ (n + 1)).tdiv ((4 : Int) ^ n) = t.tdiv ((4 : Int) ^ n) + 4 * c := by
      rw [Int.tdiv_eq_ediv h1 (by positivity), Int.tdiv_eq_ediv h0 (by positivity)]
      rw [show t + c * 4 ^ (n + 1) = t + 4 * c * 4 ^ n from by ring]
      exact Int.add_mul_ediv_right t (4 * c) (by positivity)
    show (mapStep (2 ^ n) (fwdRec n (t + c * 4 ^ (n + 1))).1 (fwdRec n (t + c * 4 ^ (n + 1))).2
        ((t + c * 4 ^ (n + 1)).tdiv ((4 : Int) ^ n))).1 = _
    rw [hinner, htq]
    apply mapStep_fst_congr
    · rw [goAnd_two, goAnd_two,
        show t.tdiv ((4 : Int) ^ n) + 4 * c = t.tdiv ((4 : Int) ^ n) + c * 4 from by ring,
        Int.add_mul_emod_self]
    · rw [goAnd_one, goAnd_one,
        show t.tdiv ((4 : Int) ^ n) + 4 * c = t.tdiv ((4 : Int) ^ n) + 2 * c * 2 from by ring,
        Int.add_mul_emod_self]

/-- Points computed by `fwdRec n` lie in `[0, 2^n)²`. -/
theorem fwdRec_range : ∀ (n : Nat) (t : Int),
    0 ≤ (fwdRec n t).1 ∧ (fwdRec n t).1 < 2 ^ n ∧
      0 ≤ (fwdRec n t).2 ∧ (fwdRec n t).2 < 2 ^ n := by
  intro n
  induction n with
  | zero =>
    intro t
    show (0 : Int) ≤ 0 ∧ (0 : Int) < 2 ^ 0 ∧ (0 : Int) ≤ 0 ∧ (0 : Int) < 2 ^ 0
    norm_num
  | succ n ih =>
    intro t
    obtain ⟨ha, hb, hc, hd⟩ := ih t
    have h2 : (2 : Int) ^ (n + 1) = 2 * 2 ^ n := by ring
    have hplus : (0 : Int) < 2 ^ n := int_two_pow_pos n
    rw [show fwdRec (n + 1) t =
      (mapStep (2 ^ n) (fwdRec n t).1 (fwdRec n t).2 (t.tdiv ((4 : Int) ^ n))).1 from rfl]
    cases hrx : (goAnd (t.tdiv ((4 : Int) ^ n)) 2 == 2) <;>
      cases hry : (goAnd (t.tdiv ((4 : Int) ^ n)) 1 == 1) <;>
        simp only [mapStep, hrx, hry, Bool.not_false, Bool.not_true, if_true, if_false,
          Bool.false_eq_true, Bool.true_eq_false, rotate_ff, rotate_ft, rotate_tf, rotate_tt] <;>
      refine ⟨by omega, by omega, by omega, by omega⟩

theorem xor_code_tt : Int.xor (if (true : Bool) then (3 : Int) else 0) (b2i true) = 2 := by decide

theorem xor_code_tf : Int.xor (if (true : Bool) then (3 : Int) else 0) (b2i false) = 3 := by decide

theorem xor_code_ft : Int.xor (if (false : Bool) then (3 : Int) else 0) (b2i true) = 1 := by decide

theorem xor_code_ff : Int.xor (if (false : Bool) then (3 : Int) else 0) (b2i false) = 0 := by decide

theorem int_sq_pow (n : Nat) : (2 : Int) ^ n * 2 ^ n = 4 ^ n := by
  rw [← mul_pow]; norm_num

theorem tdiv_pow_shift (v K : Int) (n : Nat) (h0 : 0 ≤ v) (h1 : v < 4 ^ n) (hK : 0 ≤ K) :
    (v + K * 4 ^ n).tdiv ((4 : Int) ^ n) = K := by
  have hKp : (0 : Int) ≤ K * 4 ^ n := mul_nonneg hK (by positivity)
  rw [Int.tdiv_eq_ediv (by omega) (by positivity)]
  rw [Int.add_mul_ediv_right v K (by positivity)]
  rw [Int.ediv_eq_zero_of_lt h0 h1]
  ring

/-- Round trip, inverse-then-forward: on a `2^n` grid, mapping a point to its
curve distance and back returns the point. -/
theorem fwdRec_invRec : ∀ (n : Nat) (x y : Int),
    0 ≤ x → x < 2 ^ n → 0 ≤ y → y < 2 ^ n → fwdRec n (invRec n x y) = (x, y) := by
  intro n
  induction n with
  | zero =>
    intro x y hx0 hx1 hy0 hy1
    have h1 : (2 : Int) ^ 0 = 1 := by norm_num
    have hx : x = 0 := by omega
    have hy : y = 0 := by omega
    subst hx hy
    rfl
  | succ n ih =>
    intro x y hx0 hx1 hy0 hy1
    have h2 : (2 : Int) ^ (n + 1) = 2 * 2 ^ n := by ring
    have hp := int_two_pow_pos n
    have hsq := int_sq_pow n
    rw [invRec_succ n x y]
    rw [decide_rx_of_range x n hx0 hx1, decide_rx_of_range y n hy0 hy1]
    by_cases hrx : (2 ^ n : Int) ≤ x <;> by_cases hry : (2 ^ n : Int) ≤ y
    · -- rx = true, ry = true: quadrant code 2, both halves shifted down
      rw [decide_eq_true hrx, decide_eq_true hry, xor_code_tt, rotate_tt]
      have hnorm := invRec_invariant n (x - 2 ^ n) (y - 2 ^ n) 1 1
      rw [show x - 2 ^ n + 1 * 2 ^ n = x from by ring,
          show y - 2 ^ n + 1 * 2 ^ n = y from by ring] at hnorm
      rw [hnorm]
      have hvr := invRec_range n (x - 2 ^ n) (y - 2 ^ n)
      have hIH := ih (x - 2 ^ n) (y - 2 ^ n) (by omega) (by omega) (by omega) (by omega)
      rw [show (2 : Int) ^ n * 2 ^ n * 2 + invRec n (x - 2 ^ n) (y - 2 ^ n) =
          invRec n (x - 2 ^ n) (y - 2 ^ n) + 2 * 4 ^ n from by rw [hsq]; ring]
      rw [show fwdRec (n + 1) (invRec n (x - 2 ^ n) (y - 2 ^ n) + 2 * 4 ^ n) =
          (mapStep (2 ^ n)
            (fwdRec n (invRec n (x - 2 ^ n) (y - 2 ^ n) + 2 * 4 ^ n)).1
            (fwdRec n (invRec n (x - 2 ^ n) (y - 2 ^ n) + 2 * 4 ^ n)).2
            ((invRec n (x - 2 ^ n) (y - 2 ^ n) + 2 * 4 ^ n).tdiv ((4 : Int) ^ n))).1 from rfl]
      rw [fwdRec_invariant n _ 2 hvr.1 (by
        have : (0 : Int) ≤ 2 * 4 ^ n := by positivity
        omega)]
      rw [tdiv_pow_shift _ 2 n hvr.1 hvr.2 (by norm_num)]
      rw [hIH, mapStep_q2]
      rw [show x - 2 ^ n + 2 ^ n = x from by ring, show y - 2 ^ n + 2 ^ n = y from by ring]
    · -- rx = true, ry = false: quadrant code 3
      rw [decide_eq_true hrx, decide_eq_false hry, xor_code_tf, rotate_tf]
      have hnorm := invRec_invariant n (2 ^ n - 1 - y) (2 ^ (n + 1) - 1 - x) 0 (-1)
      rw [show 2 ^ n - 1 - y + 0 * 2 ^ n = 2 ^ n - 1 - y from by ring,
          show (2 : Int) ^ (n + 1) - 1 - x + -1 * 2 ^ n = 2 ^ n - 1 - x from by
            rw [h2]; ring] at hnorm
      rw [hnorm]
      have hvr := invRec_range n (2 ^ n - 1 - y) (2 ^ (n + 1) - 1 - x)
      have hIH := ih (2 ^ n - 1 - y) (2 ^ (n + 1) - 1 - x)
        (by omega) (by omega) (by omega) (by omega)
      rw [show (2 : Int) ^ n * 2 ^ n * 3 + invRec n (2 ^ n - 1 - y) (2 ^ (n + 1) - 1 - x) =
          invRec n (2 ^ n - 1 - y) (2 ^ (n + 1) - 1 - x) + 3 * 4 ^ n from by rw [hsq]; ring]
      rw [show fwdRec (n + 1) (invRec n (2 ^ n - 1 - y) (2 ^ (n + 1) - 1 - x) + 3 * 4 ^ n) =
          (mapStep (2 ^ n)
            (fwdRec n (invRec n (2 ^ n - 1 - y) (2 ^ (n + 1) - 1 - x) + 3 * 4 ^ n)).1
            (fwdRec n (invRec n (2 ^ n - 1 - y) (2 ^ (n + 1) - 1 - x) + 3 * 4 ^ n)).2
            ((invRec n (2 ^ n - 1 - y) (2 ^ (n + 1) - 1 - x) + 3 * 4 ^ n).tdiv
              ((4 : Int) ^ n))).1 from rfl]
      rw [fwdRec_invariant n _ 3 hvr.1 (by
        have : (0 : Int) ≤ 3 * 4 ^ n := by positivity
        omega)]
      rw [tdiv_pow_shift _ 3 n hvr.1 hvr.2 (by norm_num)]
      rw [hIH, mapStep_q3]
      rw [show (2 : Int) ^ n - 1 - (2 ^ (n + 1) - 1 - x) + 2 ^ n = x from by rw [h2]; ring,
          show (2 : Int) ^ n - 1 - (2 ^ n - 1 - y) = y from by ring]
    · -- rx = false, ry = true: quadrant code 1
      rw [decide_eq_false hrx, decide_eq_true hry, xor_code_ft, rotate_ft]
      have hnorm := invRec_invariant n x (y - 2 ^ n) 0 1
      rw [show x + 0 * 2 ^ n = x from by ring,
          show y - 2 ^ n + 1 * 2 ^ n = y from by ring] at hnorm
      rw [hnorm]
      have hvr := invRec_range n x (y - 2 ^ n)
      have hIH := ih x (y - 2 ^ n) (by omega) (by omega) (by omega) (by omega)
      rw [show (2 : Int) ^ n * 2 ^ n * 1 + invRec n x (y - 2 ^ n) =
          invRec n x (y - 2 ^ n) + 1 * 4 ^ n from by rw [hsq]; ring]
      rw [show fwdRec (n + 1) (invRec n x (y - 2 ^ n) + 1 * 4 ^ n) =
          (mapStep (2 ^ n)
            (fwdRec n (invRec n x (y - 2 ^ n) + 1 * 4 ^ n)).1
            (fwdRec n (invRec n x (y - 2 ^ n) + 1 * 4 ^ n)).2
            ((invRec n x (y - 2 ^ n) + 1 * 4 ^ n).tdiv ((4 : Int) ^ n))).1 from rfl]
      rw [fwdRec_invariant n _ 1 hvr.1 (by
        have : (0 : Int) ≤ 1 * 4 ^ n := by positivity
        omega)]
      rw [tdiv_pow_shift _ 1 n hvr.1 hvr.2 (by norm_num)]
      rw [hIH, mapStep_q1]
      rw [show y - 2 ^ n + 2 ^ n = y from by ring]
    · -- rx = false, ry = false: quadrant code 0, swap
      rw [decide_eq_false hrx, decide_eq_false hry, xor_code_ff, rotate_ff]
      have hvr := invRec_range n y x
      have hIH := ih y x (by omega) (by omega) (by omega) (by omega)
      rw [show (2 : Int) ^ n * 2 ^ n * 0 + invRec n y x = invRec n y x + 0 * 4 ^ n from by ring]
      rw [show fwdRec (n + 1) (invRec n y x + 0 * 4 ^ n) =
          (mapStep (2 ^ n)
            (fwdRec n (invRec n y x + 0 * 4 ^ n)).1
            (fwdRec n (invRec n y x + 0 * 4 ^ n)).2
            ((invRec n y x + 0 * 4 ^ n).tdiv ((4 : Int) ^ n))).1 from rfl]
      rw [fwdRec_invariant n _ 0 hvr.1 (by
        have : (0 : Int) ≤ 0 * 4 ^ n := by norm_num
        omega)]
      rw [tdiv_pow_shift _ 0 n hvr.1 hvr.2 (by norm_num)]
      rw [hIH, mapStep_q0]

/-- Round trip, forward-then-inverse: on a `2^n` grid, mapping a curve
distance to a point and back returns the distance. -/
theorem invRec_fwdRec : ∀ (n : Nat) (t : Int),
    0 ≤ t → t < 4 ^ n → invRec n (fwdRec n t).1 (fwdRec n t).2 = t := by
  intro n
  induction n with
  | zero =>
    intro t h0 h1
    have h4 : (4 : Int) ^ 0 = 1 := by norm_num
    have ht : t = 0 := by omega
    subst ht
    rfl
  | succ n ih =>
    intro t h0 h1
    have h2 : (2 : Int) ^ (n + 1) = 2 * 2 ^ n := by ring
    have hp := int_two_pow_pos n
    have hsq := int_sq_pow n
    have h4p : (0 : Int) < 4 ^ n := by positivity
    have hv0 : (0 : Int) ≤ t % 4 ^ n := Int.emod_nonneg t (by positivity)
    have hv1 : t % 4 ^ n < 4 ^ n := Int.emod_lt_of_pos t (by positivity)
    have hq0 : (0 : Int) ≤ t / 4 ^ n := Int.ediv_nonneg h0 (by positivity)
    have hq4 : t / 4 ^ n < 4 := by
      rw [Int.ediv_lt_iff_lt_mul (by positivity)]
      rw [show (4 : Int) * 4 ^ n = 4 ^ (n + 1) from by ring]
      exact h1
    have ht : t = t % 4 ^ n + t / 4 ^ n * 4 ^ n := by
      have h := Int.emod_add_ediv t ((4 : Int) ^ n)
      linarith
    have htd : t.tdiv ((4 : Int) ^ n) = t / 4 ^ n := Int.tdiv_eq_ediv h0 (by positivity)
    have hinner : fwdRec n t = fwdRec n (t % 4 ^ n) := by
      conv_lhs => rw [ht]
      exact fwdRec_invariant n (t % 4 ^ n) (t / 4 ^ n) hv0 (by rw [← ht]; exact h0)
    obtain ⟨hX0, hX1, hY0, hY1⟩ := fwdRec_range n (t % 4 ^ n)
    have hIH := ih (t % 4 ^ n) hv0 hv1
    rw [show fwdRec (n + 1) t =
      (mapStep (2 ^ n) (fwdRec n t).1 (fwdRec n t).2 (t.tdiv ((4 : Int) ^ n))).1 from rfl]
    rw [hinner, htd]
    have hqcases : t / 4 ^ n = 0 ∨ t / 4 ^ n = 1 ∨ t / 4 ^ n = 2 ∨ t / 4 ^ n = 3 := by omega
    rcases hqcases with hq | hq | hq | hq <;> rw [hq] at ht ⊢
    · -- q = 0: point (Y0, X0)
      rw [mapStep_q0]
      rw [invRec_succ n (fwdRec n (t % 4 ^ n)).2 (fwdRec n (t % 4 ^ n)).1]
      rw [decide_rx_of_range _ n hY0 (by omega), decide_rx_of_range _ n hX0 (by omega)]
      rw [decide_eq_false (by omega : ¬ ((2 : Int) ^ n ≤ (fwdRec n (t % 4 ^ n)).2)),
          decide_eq_false (by omega : ¬ ((2 : Int) ^ n ≤ (fwdRec n (t % 4 ^ n)).1))]
      rw [xor_code_ff, rotate_ff, hIH]
      omega
    · -- q = 1: point (X0, Y0 + 2^n)
      rw [mapStep_q1]
      rw [invRec_succ n (fwdRec n (t % 4 ^ n)).1 ((fwdRec n (t % 4 ^ n)).2 + 2 ^ n)]
      rw [decide_rx_of_range _ n hX0 (by omega),
          decide_rx_of_range _ n (by omega : (0 : Int) ≤ (fwdRec n (t % 4 ^ n)).2 + 2 ^ n)
            (by omega)]
      rw [decide_eq_false (by omega : ¬ ((2 : Int) ^ n ≤ (fwdRec n (t % 4 ^ n)).1)),
          decide_eq_true (by omega : (2 : Int) ^ n ≤ (fwdRec n (t % 4 ^ n)).2 + 2 ^ n)]
      rw [xor_code_ft, rotate_ft]
      have hnorm := invRec_invariant n (fwdRec n (t % 4 ^ n)).1 (fwdRec n (t % 4 ^ n)).2 0 1
      rw [show (fwdRec n (t % 4 ^ n)).1 + 0 * 2 ^ n = (fwdRec n (t % 4 ^ n)).1 from by ring,
          show (fwdRec n (t % 4 ^ n)).2 + 1 * 2 ^ n = (fwdRec n (t % 4 ^ n)).2 + 2 ^ n
            from by ring] at hnorm
      rw [hnorm, hIH]
      have hc : (2 : Int) ^ n * 2 ^ n * 1 = 4 ^ n := by rw [hsq]; ring
      omega
    · -- q = 2: point (X0 + 2^n, Y0 + 2^n)
      rw [mapStep_q2]
      rw [invRec_succ n ((fwdRec n (t % 4 ^ n)).1 + 2 ^ n) ((fwdRec n (t % 4 ^ n)).2 + 2 ^ n)]
      rw [decide_rx_of_range _ n (by omega : (0 : Int) ≤ (fwdRec n (t % 4 ^ n)).1 + 2 ^ n)
            (by omega),
          decide_rx_of_range _ n (by omega : (0 : Int) ≤ (fwdRec n (t % 4 ^ n)).2 + 2 ^ n)
            (by omega)]
      rw [decide_eq_true (by omega : (2 : Int) ^ n ≤ (fwdRec n (t % 4 ^ n)).1 + 2 ^ n),
          decide_eq_true (by omega : (2 : Int) ^ n ≤ (fwdRec n (t % 4 ^ n)).2 + 2 ^ n)]
      rw [xor_code_tt, rotate_tt]
      have hnorm := invRec_invariant n (fwdRec n (t % 4 ^ n)).1 (fwdRec n (t % 4 ^ n)).2 1 1
      rw [show (fwdRec n (t % 4 ^ n)).1 + 1 * 2 ^ n = (fwdRec n (t % 4 ^ n)).1 + 2 ^ n
            from by ring,
          show (fwdRec n (t % 4 ^ n)).2 + 1 * 2 ^ n = (fwdRec n (t % 4 ^ n)).2 + 2 ^ n
            from by ring] at hnorm
      rw [hnorm, hIH]
      have hc : (2 : Int) ^ n * 2 ^ n * 2 = 2 * 4 ^ n := by rw [hsq]; ring
      omega
    · -- q = 3: point (2^n - 1 - Y0 + 2^n, 2^n - 1 - X0)
      rw [mapStep_q3]
      rw [invRec_succ n (2 ^ n - 1 - (fwdRec n (t % 4 ^ n)).2 + 2 ^ n)
        (2 ^ n - 1 - (fwdRec n (t % 4 ^ n)).1)]
      rw [decide_rx_of_range _ n
            (by omega : (0 : Int) ≤ 2 ^ n - 1 - (fwdRec n (t % 4 ^ n)).2 + 2 ^ n) (by omega),
          decide_rx_of_range _ n
            (by omega : (0 : Int) ≤ 2 ^ n - 1 - (fwdRec n (t % 4 ^ n)).1) (by omega)]
      rw [decide_eq_true
            (by omega : (2 : Int) ^ n ≤ 2 ^ n - 1 - (fwdRec n (t % 4 ^ n)).2 + 2 ^ n),
          decide_eq_false
            (by omega : ¬ ((2 : Int) ^ n ≤ 2 ^ n - 1 - (fwdRec n (t % 4 ^ n)).1))]
      rw [xor_code_tf, rotate_tf]
      rw [show (2 : Int) ^ n - 1 - (2 ^ n - 1 - (fwdRec n (t % 4 ^ n)).1) =
            (fwdRec n (t % 4 ^ n)).1 from by ring,
          show (2 : Int) ^ n - 1 - (2 ^ n - 1 - (fwdRec n (t % 4 ^ n)).2 + 2 ^ n) =
            (fwdRec n (t % 4 ^ n)).2 + -1 * 2 ^ n from by ring]
      have hnorm := invRec_invariant n (fwdRec n (t % 4 ^ n)).1 (fwdRec n (t % 4 ^ n)).2 0 (-1)
      rw [show (fwdRec n (t % 4 ^ n)).1 + 0 * 2 ^ n = (fwdRec n (t % 4 ^ n)).1 from by ring]
        at hnorm
      rw [hnorm, hIH]
      have hc : (2 : Int) ^ n * 2 ^ n * 3 = 3 * 4 ^ n := by rw [hsq]; ring
      omega

/-! ## Byte-level lemmas -/

/-- Lexicographic strict order on byte strings (shorter strings sort first). -/
def lexLt : List Nat → List Nat → Bool
  | [], [] => false
  | [], _ :: _ => true
  | _ :: _, [] => false
  | a :: as, b :: bs => a < b || (a == b && lexLt as bs)

/-- Lexicographic order, non-strict. -/
def lexLe (a b : List Nat) : Bool := lexLt a b || a == b

theorem lexLe_refl (a : List Nat) : lexLe a a = true := by
  simp [lexLe]

theorem lexLe_of_lexLt {a b : List Nat} (h : lexLt a b = true) : lexLe a b = true := by
  simp [lexLe, h]

/-- Generic big-endian byte string of `k` bytes. -/
def beBytes : Nat → Nat → List Nat
  | 0, _ => []
  | k + 1, u => u / 2 ^ (8 * k) % 256 :: beBytes k u

theorem putUint64_eq_beBytes (u : Nat) : putUint64BigEndian u = beBytes 8 u := by
  show _ = [u / 2 ^ (8 * 7) % 256, u / 2 ^ (8 * 6) % 256, u / 2 ^ (8 * 5) % 256,
    u / 2 ^ (8 * 4) % 256, u / 2 ^ (8 * 3) % 256, u / 2 ^ (8 * 2) % 256,
    u / 2 ^ (8 * 1) % 256, u / 2 ^ (8 * 0) % 256]
  norm_num [putUint64BigEndian]

theorem putUint32_eq_beBytes (u : Nat) : putUint32BigEndian u = beBytes 4 u := by
  show _ = [u / 2 ^ (8 * 3) % 256, u / 2 ^ (8 * 2) % 256, u / 2 ^ (8 * 1) % 256,
    u / 2 ^ (8 * 0) % 256]
  norm_num [putUint32BigEndian]

/-- The low `8k` bits determine `beBytes k`. -/
theorem beBytes_mod : ∀ (k : Nat) (u c : Nat), beBytes k (u + c * 2 ^ (8 * k)) = beBytes k u := by
  intro k
  induction k with
  | zero => intro u c; rfl
  | succ k ih =>
    intro u c
    show (u + c * 2 ^ (8 * (k + 1))) / 2 ^ (8 * k) % 256 :: beBytes k (u + c * 2 ^ (8 * (k + 1))) =
      u / 2 ^ (8 * k) % 256 :: beBytes k u
    have hsplit : c * 2 ^ (8 * (k + 1)) = c * 256 * 2 ^ (8 * k) := by
      rw [show 8 * (k + 1) = 8 * k + 8 from by ring, pow_add]
      ring
    rw [hsplit]
    have hdiv : (u + c * 256 * 2 ^ (8 * k)) / 2 ^ (8 * k) = u / 2 ^ (8 * k) + c * 256 :=
      Nat.add_mul_div_right u (c * 256) (Nat.pos_pow_of_pos _ (by norm_num))
    rw [hdiv]
    rw [show u / 2 ^ (8 * k) + c * 256 = u / 2 ^ (8 * k) + 256 * c from by ring,
      Nat.add_mul_mod_self_left]
    rw [ih u (c * 256)]

/-- Big-endian byte strings of `k`-byte values compare like the values. -/
theorem lexLt_beBytes : ∀ (k u v : Nat), u < v → v < 2 ^ (8 * k) →
    lexLt (beBytes k u) (beBytes k v) = true := by
  intro k
  induction k with
  | zero =>
    intro u v huv hv
    norm_num at hv
    omega
  | succ k ih =>
    intro u v huv hv
    have hP : 0 < 2 ^ (8 * k) := Nat.pos_pow_of_pos _ (by norm_num)
    have hv' : v < 2 ^ (8 * k) * 256 := by
      rw [show 2 ^ (8 * k) * 256 = 2 ^ (8 * (k + 1)) from by
        rw [show 8 * (k + 1) = 8 * k + 8 from by ring, pow_add]; norm_num]
      exact hv
    have hvq : v / 2 ^ (8 * k) < 256 := Nat.div_lt_of_lt_mul (by omega)
    have huq : u / 2 ^ (8 * k) < 256 := Nat.div_lt_of_lt_mul (by omega)
    have hule : u / 2 ^ (8 * k) ≤ v / 2 ^ (8 * k) := Nat.div_le_div_right (le_of_lt huv)
    show (u / 2 ^ (8 * k) % 256 < v / 2 ^ (8 * k) % 256 ||
      (u / 2 ^ (8 * k) % 256 == v / 2 ^ (8 * k) % 256 && lexLt (beBytes k u) (beBytes k v))) = true
    rw [Nat.mod_eq_of_lt huq, Nat.mod_eq_of_lt hvq]
    rcases Nat.lt_or_ge (u / 2 ^ (8 * k)) (v / 2 ^ (8 * k)) with hlt | hge
    · rw [Bool.or_eq_true, decide_eq_true_eq]
      left
      exact hlt
    · have heq : u / 2 ^ (8 * k) = v / 2 ^ (8 * k) := le_antisymm hule hge
      have hdu := Nat.div_add_mod u (2 ^ (8 * k))
      have hdv := Nat.div_add_mod v (2 ^ (8 * k))
      rw [heq] at hdu
      have hcomm : 2 ^ (8 * k) * (v / 2 ^ (8 * k)) = v / 2 ^ (8 * k) * 2 ^ (8 * k) :=
        Nat.mul_comm _ _
      have hmlt : u % 2 ^ (8 * k) < v % 2 ^ (8 * k) := by omega
      have hmv : v % 2 ^ (8 * k) < 2 ^ (8 * k) := Nat.mod_lt _ hP
      have hru : beBytes k u = beBytes k (u % 2 ^ (8 * k)) := by
        conv_lhs => rw [show u = u % 2 ^ (8 * k) + v / 2 ^ (8 * k) * 2 ^ (8 * k) from by omega]
        exact beBytes_mod k _ _
      have hrv : beBytes k v = beBytes k (v % 2 ^ (8 * k)) := by
        conv_lhs => rw [show v = v % 2 ^ (8 * k) + v / 2 ^ (8 * k) * 2 ^ (8 * k) from by omega]
        exact beBytes_mod k _ _
      rw [heq, hru, hrv]
      rw [Bool.or_eq_true, Bool.and_eq_true, beq_iff_eq]
      right
      exact ⟨rfl, ih _ _ hmlt hmv⟩

theorem lexLt_append : ∀ (l1 l2 s t : List Nat), l1.length = l2.length →
    lexLt l1 l2 = true → lexLt (l1 ++ s) (l2 ++ t) = true := by
  intro l1
  induction l1 with
  | nil =>
    intro l2 s t hlen h
    cases l2 with
    | nil => cases h
    | cons b bs => cases hlen
  | cons a as ih =>
    intro l2 s t hlen h
    cases l2 with
    | nil => cases hlen
    | cons b bs =>
      simp only [List.cons_append, lexLt, Bool.or_eq_true, Bool.and_eq_true,
        decide_eq_true_eq, beq_iff_eq] at h ⊢
      rcases h with h | ⟨h1, h2⟩
      · left; exact h
      · right
        exact ⟨h1, ih bs s t (by simpa using hlen) h2⟩

/-- Big-endian 8-byte encodings of `uint64` values compare like the values. -/
theorem lexLt_putUint64 (u v : Nat) (huv : u < v) (hv : v < 2 ^ 64) :
    lexLt (putUint64BigEndian u) (putUint64BigEndian v) = true := by
  rw [putUint64_eq_beBytes, putUint64_eq_beBytes]
  exact lexLt_beBytes 8 u v huv (by norm_num at hv ⊢; exact hv)

/-- Big-endian 4-byte encodings (zero-padded to 8 bytes) of `uint32` values
compare like the values. -/
theorem lexLt_putUint32 (u v : Nat) (huv : u < v) (hv : v < 2 ^ 32) :
    lexLt (putUint32BigEndian u ++ [0, 0, 0, 0]) (putUint32BigEndian v ++ [0, 0, 0, 0]) = true := by
  rw [putUint32_eq_beBytes, putUint32_eq_beBytes]
  exact lexLt_append (beBytes 4 u) (beBytes 4 v) _ _ rfl
    (lexLt_beBytes 4 u v huv (by norm_num at hv ⊢; exact hv))

theorem uint32_roundtrip (u : Nat) (h : u < 2 ^ 32) :
    uint32FromBigEndian ((putUint32BigEndian u ++ [0, 0, 0, 0]).take 4) = u := by
  show u / 2 ^ 24 % 256 * 2 ^ 24 + u / 2 ^ 16 % 256 * 2 ^ 16 + u / 2 ^ 8 % 256 * 2 ^ 8 +
    u % 256 = u
  omega

theorem uint64_roundtrip (u : Nat) (h : u < 2 ^ 64) :
    uint64FromBigEndian ((putUint64BigEndian u).take 8) = u := by
  show u / 2 ^ 56 % 256 * 2 ^ 56 + u / 2 ^ 48 % 256 * 2 ^ 48 + u / 2 ^ 40 % 256 * 2 ^ 40 +
    u / 2 ^ 32 % 256 * 2 ^ 32 + u / 2 ^ 24 % 256 * 2 ^ 24 + u / 2 ^ 16 % 256 * 2 ^ 16 +
    u / 2 ^ 8 % 256 * 2 ^ 8 + u % 256 = u
  omega

theorem toUintW_of_range (w : Nat) (v : Int) (h0 : 0 ≤ v) (h1 : v < 2 ^ w) :
    toUintW w v = v.toNat := by
  rw [toUintW, Int.emod_eq_of_lt h0 (by exact_mod_cast h1)]

/-! ## Constructor inversion -/

/-- The two instances `NewSpatialIndex2D` can return. -/
def index32 : SpatialIndex2D := { edgeLength := 2 ^ 15, integerBits := 32, edgeSizeBits := 15 }

/-- The 64-bit instance. -/
def index64 : SpatialIndex2D := { edgeLength := 2 ^ 31, integerBits := 64, edgeSizeBits := 31 }

theorem NewSpatialIndex2D_inv (bits : Int) (index : SpatialIndex2D)
    (h : NewSpatialIndex2D bits = .ok index) :
    (bits = 32 ∧ index = index32) ∨
    (bits = 64 ∧ index = index64) := by
  by_cases h1 : bits > uintSize
  · rw [NewSpatialIndex2D, if_pos h1] at h
    simp at h
  · by_cases h2 : bits ≠ 32 ∧ bits ≠ 64
    · rw [NewSpatialIndex2D, if_neg h1, if_pos h2] at h
      simp at h
    · rw [NewSpatialIndex2D, if_neg h1, if_neg h2] at h
      rcases em (bits = 32) with hb | hb
      · left
        refine ⟨hb, ?_⟩
        subst hb
        injection h with h
        rw [← h]
        decide
      · have hb64 : bits = 64 := by tauto
        right
        refine ⟨hb64, ?_⟩
        subst hb64
        injection h with h
        rw [← h]
        decide

/-! ## Composed curve round trip -/

theorem curve_roundtrip_pair (n fuel : Nat) (hfuel : n ≤ fuel) (X Y : Int)
    (hX0 : 0 ≤ X) (hX1 : X < 2 ^ n) (hY0 : 0 ≤ Y) (hY1 : Y < 2 ^ n) :
    hilbert.pointToDistanceAlongCurve ⟨2 ^ n⟩ fuel X Y = .ok (invRec n X Y) ∧
      hilbert.distanceAlongCurveToPoint ⟨2 ^ n⟩ fuel (invRec n X Y) = .ok (X, Y) := by
  refine ⟨pointToDistance_eq_invRec n fuel hfuel X Y hX0 hX1 hY0 hY1, ?_⟩
  have hr := invRec_range n X Y
  rw [distanceToPoint_eq_fwdRec n fuel hfuel _ hr.1 hr.2]
  rw [show (fwdRec n (invRec n X Y)) = (X, Y) from fwdRec_invRec n X Y hX0 hX1 hY0 hY1]

/-- C3: for a curve mapper whose `edgeLength` is a positive power of two
(`edgeLength = 2^n`, with any sufficient iteration bound), every distance
`t ∈ [0, edgeLength²)` maps to a point and back to `t`, and every point
`(x, y) ∈ [0, edgeLength)²` maps to a distance and back to `(x, y)`. -/
theorem claim_C3_curve_roundtrip (n fuel : Nat) (hfuel : n ≤ fuel) :
    (∀ t : Int, 0 ≤ t → t < (2 ^ n : Int) * 2 ^ n →
      ∃ x y : Int, hilbert.distanceAlongCurveToPoint ⟨2 ^ n⟩ fuel t = .ok (x, y) ∧
        hilbert.pointToDistanceAlongCurve ⟨2 ^ n⟩ fuel x y = .ok t) ∧
    (∀ x y : Int, 0 ≤ x → x < 2 ^ n → 0 ≤ y → y < 2 ^ n →
      ∃ t : Int, hilbert.pointToDistanceAlongCurve ⟨2 ^ n⟩ fuel x y = .ok t ∧
        hilbert.distanceAlongCurveToPoint ⟨2 ^ n⟩ fuel t = .ok (x, y)) := by
  constructor
  · intro t h0 h1
    rw [int_sq_pow n] at h1
    refine ⟨(fwdRec n t).1, (fwdRec n t).2, ?_, ?_⟩
    · rw [distanceToPoint_eq_fwdRec n fuel hfuel t h0 h1]
    · obtain ⟨ha, hb, hc, hd⟩ := fwdRec_range n t
      rw [pointToDistance_eq_invRec n fuel hfuel _ _ ha hb hc hd]
      rw [invRec_fwdRec n t h0 h1]
  · intro x y hx0 hx1 hy0 hy1
    obtain ⟨h1, h2⟩ := curve_roundtrip_pair n fuel hfuel x y hx0 hx1 hy0 hy1
    exact ⟨invRec n x y, h1, h2⟩

theorem claim_C3_curve_roundtrip_witness :
    ∃ x y : Int, hilbert.distanceAlongCurveToPoint ⟨2 ^ 2⟩ 2 7 = .ok (x, y) ∧
      hilbert.pointToDistanceAlongCurve ⟨2 ^ 2⟩ 2 x y = .ok 7 :=
  (claim_C3_curve_roundtrip 2 2 (by norm_num)).1 7 (by norm_num) (by norm_num)

/-! ## The two codecs -/

theorem index32_fields :
    index32.tohilbert = ⟨2 ^ 15⟩ := rfl

/-- Byte codec round trip, 32-bit flavor. -/
theorem bytes32_roundtrip (index : SpatialIndex2D) (hbits : index.integerBits = 32)
    (v : Int) (h0 : 0 ≤ v) (h1 : v < 2 ^ 32) :
    index.eightBytesToInt (index.intToEightBytes v) = v ∧
      (index.intToEightBytes v).length = 8 := by
  rw [SpatialIndex2D.intToEightBytes, SpatialIndex2D.eightBytesToInt, hbits]
  rw [if_pos (by norm_num), if_pos (by norm_num)]
  constructor
  · rw [toUintW_of_range 32 v h0 h1]
    rw [uint32_roundtrip v.toNat (by omega)]
    exact Int.toNat_of_nonneg h0
  · rfl

/-- Byte codec round trip, 64-bit flavor. -/
theorem bytes64_roundtrip (index : SpatialIndex2D) (hbits : index.integerBits = 64)
    (v : Int) (h0 : 0 ≤ v) (h1 : v < 2 ^ 63) :
    index.eightBytesToInt (index.intToEightBytes v) = v ∧
      (index.intToEightBytes v).length = 8 := by
  rw [SpatialIndex2D.intToEightBytes, SpatialIndex2D.eightBytesToInt, hbits]
  rw [if_neg (by norm_num), if_neg (by norm_num)]
  constructor
  · rw [toUintW_of_range 64 v h0 (by omega)]
    rw [uint64_roundtrip v.toNat (by omega)]
    rw [int64OfUint, if_pos (by omega)]
    exact Int.toNat_of_nonneg h0
  · rfl

/-- C2: for both codecs, decoding an encoded in-range point returns the
original coordinates with no error. -/
theorem claim_C2_codec_roundtrip (bits : Int) (index : SpatialIndex2D)
    (hnew : NewSpatialIndex2D bits = .ok index) (x y : Int)
    (hx1 : (index.GetValidInputRange).1 ≤ x) (hx2 : x ≤ (index.GetValidInputRange).2)
    (hy1 : (index.GetValidInputRange).1 ≤ y) (hy2 : y ≤ (index.GetValidInputRange).2) :
    ∃ key : List Nat, index.GetIndexedPoint x y = .ok key ∧
      index.GetPositionFromIndexedPoint key = .ok (x, y) := by
  rcases NewSpatialIndex2D_inv bits index hnew with ⟨hb, rfl⟩ | ⟨hb, rfl⟩
  · -- 32-bit codec: edge 2^15, shift 2^14
    rw [show index32.GetValidInputRange = (-(2 ^ 14) + 1, 2 ^ 14 - 1) from by decide]
      at hx1 hx2 hy1 hy2
    simp only at hx1 hx2 hy1 hy2
    have h14 : (2 : Int) ^ 14 = 16384 := by norm_num
    have h15 : (2 : Int) ^ 15 = 32768 := by norm_num
    have hshift : index32.edgeLength.tdiv 2 = 2 ^ 14 := by decide
    obtain ⟨hfwd, hbwd⟩ := curve_roundtrip_pair 15 15 (le_refl 15) (x + 2 ^ 14) (y + 2 ^ 14)
      (by omega) (by omega) (by omega) (by omega)
    have hvr := invRec_range 15 (x + 2 ^ 14) (y + 2 ^ 14)
    have h415 : (4 : Int) ^ 15 = 1073741824 := by norm_num
    obtain ⟨hbytes, hlen⟩ := bytes32_roundtrip
      index32
      rfl (invRec 15 (x + 2 ^ 14) (y + 2 ^ 14)) hvr.1 (by omega)
    refine ⟨index32.intToEightBytes (invRec 15 (x + 2 ^ 14) (y + 2 ^ 14)), ?_, ?_⟩
    · rw [SpatialIndex2D.GetIndexedPoint, hshift]
      rw [show index32.hilbertFuel = 15 from rfl]
      rw [index32_fields, hfwd]
    · rw [SpatialIndex2D.GetPositionFromIndexedPoint, if_neg (by omega)]
      rw [hbytes]
      rw [show index32.hilbertFuel = 15 from rfl]
      rw [index32_fields, hbwd]
      show Except.ok (x + 2 ^ 14 - 2 ^ 14, y + 2 ^ 14 - 2 ^ 14) = Except.ok (x, y)
      rw [show x + 2 ^ 14 - 2 ^ 14 = x from by ring, show y + 2 ^ 14 - 2 ^ 14 = y from by ring]
  · -- 64-bit codec: edge 2^31, shift 2^30
    rw [show index64.GetValidInputRange = (-(2 ^ 30) + 1, 2 ^ 30 - 1) from by decide]
      at hx1 hx2 hy1 hy2
    simp only at hx1 hx2 hy1 hy2
    have h30 : (2 : Int) ^ 30 = 1073741824 := by norm_num
    have h31 : (2 : Int) ^ 31 = 2147483648 := by norm_num
    have hshift : index64.edgeLength.tdiv 2 = 2 ^ 30 := by decide
    obtain ⟨hfwd, hbwd⟩ := curve_roundtrip_pair 31 31 (le_refl 31) (x + 2 ^ 30) (y + 2 ^ 30)
      (by omega) (by omega) (by omega) (by omega)
    have hvr := invRec_range 31 (x + 2 ^ 30) (y + 2 ^ 30)
    have h431 : (4 : Int) ^ 31 = 4611686018427387904 := by norm_num
    have h63 : (2 : Int) ^ 63 = 9223372036854775808 := by norm_num
    obtain ⟨hbytes, hlen⟩ := bytes64_roundtrip
      index64
      rfl (invRec 31 (x + 2 ^ 30) (y + 2 ^ 30)) hvr.1 (by omega)
    refine ⟨index64.intToEightBytes (invRec 31 (x + 2 ^ 30) (y + 2 ^ 30)), ?_, ?_⟩
    · rw [SpatialIndex2D.GetIndexedPoint, hshift]
      rw [show index64.hilbertFuel = 31 from rfl]
      rw [show index64.tohilbert = ⟨2 ^ 31⟩ from rfl]
      rw [hfwd]
    · rw [SpatialIndex2D.GetPositionFromIndexedPoint, if_neg (by omega)]
      rw [hbytes]
      rw [show index64.hilbertFuel = 31 from rfl]
      rw [show index64.tohilbert = ⟨2 ^ 31⟩ from rfl]
      rw [hbwd]
      show Except.ok (x + 2 ^ 30 - 2 ^ 30, y + 2 ^ 30 - 2 ^ 30) = Except.ok (x, y)
      rw [show x + 2 ^ 30 - 2 ^ 30 = x from by ring, show y + 2 ^ 30 - 2 ^ 30 = y from by ring]

theorem claim_C2_codec_roundtrip_witness :
    ∃ index : SpatialIndex2D, NewSpatialIndex2D 32 = .ok index ∧
      ∃ key : List Nat, index.GetIndexedPoint 3 (-5) = .ok key ∧
        index.GetPositionFromIndexedPoint key = .ok (3, -5) := by
  refine ⟨index32, rfl, ?_⟩
  exact claim_C2_codec_roundtrip 32
    index32
    rfl 3 (-5) (by decide) (by decide) (by decide) (by decide)

theorem pointToDistance_error_iff (s : hilbert) (fuel : Nat) (x y : Int) :
    (∃ e, s.pointToDistanceAlongCurve fuel x y = .error e) ↔
      (x < 0 ∨ x ≥ s.edgeLength ∨ y < 0 ∨ y ≥ s.edgeLength) := by
  rw [hilbert.pointToDistanceAlongCurve]
  by_cases h : (x < 0 ∨ x ≥ s.edgeLength ∨ y < 0 ∨ y ≥ s.edgeLength)
  · rw [if_pos h]
    simp [h]
  · rw [if_neg h]
    simp [h]

theorem GetIndexedPoint_error_iff (index : SpatialIndex2D) (x y : Int) :
    (∃ e, index.GetIndexedPoint x y = .error e) ↔
      (∃ e, index.tohilbert.pointToDistanceAlongCurve index.hilbertFuel
        (x + index.edgeLength.tdiv 2) (y + index.edgeLength.tdiv 2) = .error e) := by
  rw [SpatialIndex2D.GetIndexedPoint]
  cases h : index.tohilbert.pointToDistanceAlongCurve index.hilbertFuel
      (x + index.edgeLength.tdiv 2) (y + index.edgeLength.tdiv 2) with
  | error e => simp
  | ok v => simp

theorem GetIndexedPoint_ok (index : SpatialIndex2D) (x y : Int)
    (h : ¬ (x + index.edgeLength.tdiv 2 < 0 ∨
      x + index.edgeLength.tdiv 2 ≥ index.edgeLength ∨
      y + index.edgeLength.tdiv 2 < 0 ∨
      y + index.edgeLength.tdiv 2 ≥ index.edgeLength)) :
    ∃ key, index.GetIndexedPoint x y = .ok key := by
  rw [SpatialIndex2D.GetIndexedPoint, hilbert.pointToDistanceAlongCurve]
  rw [show index.tohilbert.edgeLength = index.edgeLength from rfl]
  rw [if_neg h]
  exact ⟨_, rfl⟩

/-- C9: `GetIndexedPoint` fails exactly when a shifted coordinate leaves
`[0, edgeLength)`; it therefore succeeds on
`[-2^(edgeSizeBits-1), 2^(edgeSizeBits-1) - 1]²`, whose lower end is one
below the minimum reported by `GetValidInputRange`. -/
theorem claim_C9_error_domain (bits : Int) (index : SpatialIndex2D)
    (hnew : NewSpatialIndex2D bits = .ok index) :
    (∀ x y : Int,
      (∃ e, index.GetIndexedPoint x y = .error e) ↔
        (x + index.edgeLength.tdiv 2 < 0 ∨ x + index.edgeLength.tdiv 2 ≥ index.edgeLength ∨
         y + index.edgeLength.tdiv 2 < 0 ∨ y + index.edgeLength.tdiv 2 ≥ index.edgeLength)) ∧
    (∀ x y : Int,
      -(2 ^ (index.edgeSizeBits - 1).toNat) ≤ x → x ≤ 2 ^ (index.edgeSizeBits - 1).toNat - 1 →
      -(2 ^ (index.edgeSizeBits - 1).toNat) ≤ y → y ≤ 2 ^ (index.edgeSizeBits - 1).toNat - 1 →
      ∃ key, index.GetIndexedPoint x y = .ok key) ∧
    -(2 ^ (index.edgeSizeBits - 1).toNat) = (index.GetValidInputRange).1 - 1 := by
  have hhalf : ∀ x y : Int,
      (∃ e, index.GetIndexedPoint x y = .error e) ↔
        (x + index.edgeLength.tdiv 2 < 0 ∨ x + index.edgeLength.tdiv 2 ≥ index.edgeLength ∨
         y + index.edgeLength.tdiv 2 < 0 ∨ y + index.edgeLength.tdiv 2 ≥ index.edgeLength) := by
    intro x y
    rw [GetIndexedPoint_error_iff]
    rw [pointToDistance_error_iff]
  refine ⟨hhalf, ?_, ?_⟩
  · intro x y hx1 hx2 hy1 hy2
    apply GetIndexedPoint_ok
    rcases NewSpatialIndex2D_inv bits index hnew with ⟨hb, rfl⟩ | ⟨hb, rfl⟩
    · rw [show index32.edgeLength.tdiv 2 = 2 ^ 14 from by decide]
      rw [show index32.edgeLength = 2 ^ 15 from rfl]
      rw [show ((index32.edgeSizeBits - 1).toNat) = 14 from by decide] at hx1 hx2 hy1 hy2
      have h14 : (2 : Int) ^ 14 = 16384 := by norm_num
      have h15 : (2 : Int) ^ 15 = 32768 := by norm_num
      omega
    · rw [show index64.edgeLength.tdiv 2 = 2 ^ 30 from by decide]
      rw [show index64.edgeLength = 2 ^ 31 from rfl]
      rw [show ((index64.edgeSizeBits - 1).toNat) = 30 from by decide] at hx1 hx2 hy1 hy2
      have h30 : (2 : Int) ^ 30 = 1073741824 := by norm_num
      have h31 : (2 : Int) ^ 31 = 2147483648 := by norm_num
      omega
  · rcases NewSpatialIndex2D_inv bits index hnew with ⟨hb, rfl⟩ | ⟨hb, rfl⟩
    · decide
    · decide

theorem claim_C9_error_domain_witness :
    ∃ key, index64.GetIndexedPoint 0 0 = .ok key :=
  (claim_C9_error_domain 64 _ rfl).2.1 0 0 (by decide) (by decide) (by decide) (by decide)

/-- Core of the byte-key monotonicity: for either constructed codec, the
8-byte encodings of curve distances in `[0, edgeLength²]` compare
lexicographically like the distances. -/
theorem intToEightBytes_lexLt (bits : Int) (index : SpatialIndex2D)
    (hnew : NewSpatialIndex2D bits = .ok index) (t1 t2 : Int)
    (h0 : 0 ≤ t1) (hlt : t1 < t2) (h2 : t2 ≤ index.edgeLength * index.edgeLength) :
    lexLt (index.intToEightBytes t1) (index.intToEightBytes t2) = true := by
  rcases NewSpatialIndex2D_inv bits index hnew with ⟨hb, rfl⟩ | ⟨hb, rfl⟩
  · have hsq : index32.edgeLength * index32.edgeLength = 1073741824 := by decide
    rw [hsq] at h2
    have hform : ∀ t : Int, index32.intToEightBytes t = putUint32BigEndian (toUintW 32 t) ++ [0, 0, 0, 0] :=
      fun t => rfl
    rw [hform, hform]
    have h32 : (2 : Int) ^ 32 = 4294967296 := by norm_num
    rw [toUintW_of_range 32 t1 h0 (by omega), toUintW_of_range 32 t2 (by omega) (by omega)]
    exact lexLt_putUint32 t1.toNat t2.toNat (by omega) (by omega)
  · have hsq : index64.edgeLength * index64.edgeLength = 4611686018427387904 := by decide
    rw [hsq] at h2
    have hform : ∀ t : Int, index64.intToEightBytes t = putUint64BigEndian (toUintW 64 t) :=
      fun t => rfl
    rw [hform, hform]
    have h64 : (2 : Int) ^ 64 = 18446744073709551616 := by norm_num
    rw [toUintW_of_range 64 t1 h0 (by omega), toUintW_of_range 64 t2 (by omega) (by omega)]
    exact lexLt_putUint64 t1.toNat t2.toNat (by omega) (by omega)

/-- Non-strict version of `intToEightBytes_lexLt`. -/
theorem intToEightBytes_lexLe (bits : Int) (index : SpatialIndex2D)
    (hnew : NewSpatialIndex2D bits = .ok index) (t1 t2 : Int)
    (h0 : 0 ≤ t1) (hle : t1 ≤ t2) (h2 : t2 ≤ index.edgeLength * index.edgeLength) :
    lexLe (index.intToEightBytes t1) (index.intToEightBytes t2) = true := by
  rcases eq_or_lt_of_le hle with rfl | hlt
  · exact lexLe_refl _
  · exact lexLe_of_lexLt (intToEightBytes_lexLt bits index hnew t1 t2 h0 hlt h2)

/-- C5: byte keys of valid curve distances are lexicographically ordered like
the distances, for both codecs. -/
theorem claim_C5_lex_monotone (bits : Int) (index : SpatialIndex2D)
    (hnew : NewSpatialIndex2D bits = .ok index) (t1 t2 : Int)
    (h0 : 0 ≤ t1) (hlt : t1 < t2) (h2 : t2 ≤ index.edgeLength * index.edgeLength) :
    lexLt (index.intToEightBytes t1) (index.intToEightBytes t2) = true :=
  intToEightBytes_lexLt bits index hnew t1 t2 h0 hlt h2

theorem claim_C5_lex_monotone_witness :
    lexLt (index64.intToEightBytes 7)
      (index64.intToEightBytes 300) = true :=
  claim_C5_lex_monotone 64 _ rfl 7 300 (by decide) (by decide) (by decide)

/-- C6 counterexample: the largest key of the 32-bit codec's `GetOutputRange`
has a nonzero high-order 4-byte prefix (it is `0x40000000`), refuting the
claim that keys carry zeros in the high-order 4 bytes. -/
theorem claim_C6_counterexample :
    ∃ index : SpatialIndex2D, NewSpatialIndex2D 32 = .ok index ∧
      (index.GetOutputRange).2.take 4 ≠ [0, 0, 0, 0] :=
  ⟨index32, rfl, by decide⟩

/-- C6 amended: for the 32-bit codec every 8-byte key produced by
`GetIndexedPoint` and `GetOutputRange` has its low-order (last) 4 bytes zero,
with the curve-distance value carried big-endian in the high-order (first)
4 bytes. -/
theorem claim_C6_amended (index : SpatialIndex2D)
    (hnew : NewSpatialIndex2D 32 = .ok index) :
    (∀ x y key, index.GetIndexedPoint x y = .ok key →
      ∃ v : Int, index.tohilbert.pointToDistanceAlongCurve index.hilbertFuel
          (x + index.edgeLength.tdiv 2) (y + index.edgeLength.tdiv 2) = .ok v ∧
        key = putUint32BigEndian (toUintW 32 v) ++ [0, 0, 0, 0] ∧
        key.drop 4 = [0, 0, 0, 0]) ∧
    (index.GetOutputRange).1.drop 4 = [0, 0, 0, 0] ∧
    (index.GetOutputRange).2.drop 4 = [0, 0, 0, 0] := by
  rcases NewSpatialIndex2D_inv 32 index hnew with ⟨_, rfl⟩ | ⟨hb, _⟩
  · refine ⟨?_, by decide, by decide⟩
    intro x y key hkey
    rw [SpatialIndex2D.GetIndexedPoint] at hkey
    cases h : index32.tohilbert.pointToDistanceAlongCurve
          (index32.hilbertFuel)
          (x + index32.edgeLength.tdiv 2)
          (y + index32.edgeLength.tdiv 2) with
    | error e => rw [h] at hkey; cases hkey
    | ok v =>
      rw [h] at hkey
      injection hkey with hkey
      refine ⟨v, rfl, ?_, ?_⟩
      · rw [← hkey]
        rfl
      · rw [← hkey]
        rfl
  · exact absurd hb (by norm_num)

theorem claim_C6_amended_witness :
    (index32.GetOutputRange).1.drop 4 = [0, 0, 0, 0] ∧
      (index32.GetOutputRange).2.drop 4 = [0, 0, 0, 0] :=
  ⟨(claim_C6_amended _ rfl).2.1, (claim_C6_amended _ rfl).2.2⟩

/-! ## RectangleToIndexedRanges: supporting lemmas -/

/-- C4 (code bug): one pass of the downsampling loop on a `20×10` rectangle
leaves `height = 10`, because the source computes `halfHeight := width / 2`
(and applies the width-halving block twice); halving `height` by its own
half, as the claim states, would give `10/2 + 10 % (10/2) = 5`. -/
theorem claim_C4_downsample_bug :
    downsampleLoop (downsampleFuel 20 10) 0 0 20 10 0 = some (0, 0, 10, 10, 1) ∧
      (10 : Int).tdiv 2 + (10 : Int).tmod ((10 : Int).tdiv 2) = 5 := by
  constructor
  · decide
  · decide

theorem sampleInner_ok_length (curve : hilbert) (fuel : Nat) (x y width : Int) (i : Int) :
    ∀ (n : Nat) (j : Int) (cps cps' : List Int),
      sampleInner curve fuel x y width i n j cps = .ok cps' → cps'.length = cps.length := by
  intro n
  induction n with
  | zero =>
    intro j cps cps' h
    injection h with h
    rw [← h]
  | succ n ih =>
    intro j cps cps' h
    rw [sampleInner] at h
    cases hp : curve.pointToDistanceAlongCurve fuel (x + i + curve.edgeLength.tdiv 2)
        (y + j + curve.edgeLength.tdiv 2) with
    | error e => rw [hp] at h; cases h
    | ok d =>
      rw [hp] at h
      dsimp only at h
      cases hs : setChecked cps (j * width + i) d with
      | none => rw [hs] at h; cases h
      | some cps2 =>
        rw [hs] at h
        have hlen : cps2.length = cps.length := by
          rw [setChecked] at hs
          by_cases hb : 0 ≤ j * width + i ∧ (j * width + i).toNat < cps.length
          · rw [if_pos hb] at hs
            injection hs with hs
            rw [← hs, List.length_set]
          · rw [if_neg hb] at hs; cases hs
        rw [ih (j + 1) cps2 cps' h, hlen]

theorem sampleOuter_ok_length (curve : hilbert) (fuel : Nat) (x y width height : Int) :
    ∀ (n : Nat) (i : Int) (cps cps' : List Int),
      sampleOuter curve fuel x y width height n i cps = .ok cps' → cps'.length = cps.length := by
  intro n
  induction n with
  | zero =>
    intro i cps cps' h
    injection h with h
    rw [← h]
  | succ n ih =>
    intro i cps cps' h
    rw [sampleOuter] at h
    cases hs : sampleInner curve fuel x y width i height.toNat 0 cps with
    | panicked => rw [hs] at h; cases h
    | fuelOut => rw [hs] at h; cases h
    | errored e => rw [hs] at h; cases h
    | ok cps2 =>
      rw [hs] at h
      dsimp only at h
      rw [ih (i + 1) cps2 cps' h, sampleInner_ok_length curve fuel x y width i _ _ _ _ hs]

/-- Basic facts about a successful sampling stage: the cell count is
nonnegative and counts the sorted samples, and the too-large check passed. -/
theorem rtirSamples_ok_basic (index : SpatialIndex2D) (x y w h : Int)
    (sorted : List Int) (wh : Int) (rb : Nat)
    (hok : rtirSamples index x y w h = .ok (sorted, wh, rb)) :
    0 ≤ wh ∧ sorted.length = wh.toNat ∧ 3 ≤ index.edgeSizeBits - (rb : Int) ∧
      List.Pairwise (· ≤ ·) sorted := by
  rw [rtirSamples] at hok
  cases hds : downsampleLoop (downsampleFuel w h) x y w h 0 with
  | none => rw [hds] at hok; cases hok
  | some st =>
    rw [hds] at hok
    obtain ⟨x1, y1, w1, h1, rb1⟩ := st
    dsimp only at hok
    by_cases hbig : index.edgeSizeBits - (rb1 : Int) < 3
    · rw [if_pos hbig] at hok; cases hok
    · rw [if_neg hbig] at hok
      rcases hc : (if rb1 > 0 then
          edgeCorrections (2 ^ (index.edgeSizeBits - (rb1 : Int)).toNat) x1 y1 w1 h1
        else (x1, y1, w1, h1)) with ⟨x2, y2, w2, h2⟩
      rw [hc] at hok
      by_cases hneg : goInt64 (w2 * h2) < 0
      · rw [if_pos hneg] at hok; cases hok
      · rw [if_neg hneg] at hok
        cases hso : sampleOuter ⟨2 ^ (index.edgeSizeBits - (rb1 : Int)).toNat⟩
            (index.edgeSizeBits - (rb1 : Int)).toNat x2 y2 w2 h2 w2.toNat 0
            (List.replicate (goInt64 (w2 * h2)).toNat 0) with
        | panicked => rw [hso] at hok; cases hok
        | fuelOut => rw [hso] at hok; cases hok
        | errored e => rw [hso] at hok; cases hok
        | ok cps =>
          rw [hso] at hok
          injection hok with hok
          obtain ⟨h1', h2', h3'⟩ : sorted = cps.insertionSort (· ≤ ·) ∧
              wh = goInt64 (w2 * h2) ∧ rb = rb1 := by
            have := hok
            injection this with ha hb
            injection hb with hb1 hb2
            exact ⟨ha.symm, hb1.symm, hb2.symm⟩
          subst h1' h2' h3'
          refine ⟨by omega, ?_, by omega, ?_⟩
          · rw [(List.perm_insertionSort (· ≤ ·) cps).length_eq]
            rw [sampleOuter_ok_length _ _ _ _ _ _ _ _ _ _ hso]
            rw [List.length_replicate]
          · exact List.Pairwise.imp (by intro a b hab; exact hab)
              ((List.sorted_insertionSort (· ≤ ·) cps) : List.Pairwise _ _)

theorem mergeLoop_length_start (wh pN pD : Int) :
    ∀ (l : List Int) (s1 s2 prev : Int),
      (mergeLoop wh pN pD s1 prev l).length = (mergeLoop wh pN pD s2 prev l).length := by
  intro l
  induction l with
  | nil => intro s1 s2 prev; rfl
  | cons c rest ih =>
    intro s1 s2 prev
    rw [mergeLoop, mergeLoop]
    by_cases hs : splitGap wh (c - prev) pN pD = true
    · rw [if_pos hs, if_pos hs]
      simp only [List.length_cons]
    · rw [if_neg hs, if_neg hs]
      exact ih s1 s2 c

theorem mergeLoop_length_pos (wh pN pD : Int) :
    ∀ (l : List Int) (s prev : Int), 1 ≤ (mergeLoop wh pN pD s prev l).length := by
  intro l
  induction l with
  | nil => intro s prev; norm_num [mergeLoop]
  | cons c rest ih =>
    intro s prev
    rw [mergeLoop]
    by_cases hs : splitGap wh (c - prev) pN pD = true
    · rw [if_pos hs]
      simp only [List.length_cons]
      omega
    · rw [if_neg hs]
      exact ih s c

theorem mergeLoop_length_mono (wh pN1 pD1 pN2 pD2 : Int)
    (hmono : ∀ d : Int, splitGap wh d pN2 pD2 = true → splitGap wh d pN1 pD1 = true) :
    ∀ (l : List Int) (s prev : Int),
      (mergeLoop wh pN2 pD2 s prev l).length ≤ (mergeLoop wh pN1 pD1 s prev l).length := by
  intro l
  induction l with
  | nil => intro s prev; rfl
  | cons c rest ih =>
    intro s prev
    rw [mergeLoop, mergeLoop]
    by_cases h2 : splitGap wh (c - prev) pN2 pD2 = true
    · rw [if_pos h2, if_pos (hmono _ h2)]
      simp only [List.length_cons]
      exact Nat.add_le_add_right (ih c c) 1
    · rw [if_neg h2]
      by_cases h1 : splitGap wh (c - prev) pN1 pD1 = true
      · rw [if_pos h1]
        simp only [List.length_cons]
        calc (mergeLoop wh pN2 pD2 s c rest).length
            = (mergeLoop wh pN2 pD2 c c rest).length := mergeLoop_length_start _ _ _ _ _ _ _
        _ ≤ (mergeLoop wh pN1 pD1 c c rest).length := ih c c
        _ ≤ (mergeLoop wh pN1 pD1 c c rest).length + 1 := by omega
      · rw [if_neg h1]
        exact ih s c

/-- The integer cross-multiplication `splitGap` is the exact rational
comparison `distance > wh * p`. -/
theorem splitGap_iff_rat (wh d : Int) (p : ℚ) :
    splitGap wh d p.num (p.den : Int) = true ↔ (wh : ℚ) * p < (d : ℚ) := by
  rw [splitGap, decide_eq_true_eq]
  have hden : (0 : ℚ) < ((p.den : Int) : ℚ) := by
    exact_mod_cast p.pos
  constructor
  · intro h
    have hq : ((wh * p.num : Int) : ℚ) < ((d * p.den : Int) : ℚ) := by exact_mod_cast h
    push_cast at hq
    calc (wh : ℚ) * p = (wh : ℚ) * ((p.num : ℚ) / (p.den : ℚ)) := by rw [Rat.num_div_den]
    _ = (wh : ℚ) * (p.num : ℚ) / (p.den : ℚ) := by ring
    _ < (d : ℚ) := by
        rw [div_lt_iff₀ (by exact_mod_cast p.pos)]
        exact_mod_cast hq
  · intro h
    have h2 : (wh : ℚ) * (p.num : ℚ) / (p.den : ℚ) < (d : ℚ) := by
      calc (wh : ℚ) * (p.num : ℚ) / (p.den : ℚ) = (wh : ℚ) * ((p.num : ℚ) / (p.den : ℚ)) := by
            ring
      _ = (wh : ℚ) * p := by rw [Rat.num_div_den]
      _ < (d : ℚ) := h
    rw [div_lt_iff₀ (by exact_mod_cast p.pos)] at h2
    exact_mod_cast h2

/-- C7: for a fixed rectangle, a larger positive `iopsCostParam` never
produces more ranges. -/
theorem claim_C7_iops_antitone (index : SpatialIndex2D) (x y w h : Int) (p1 p2 : ℚ)
    (_hp1 : 0 < p1) (hple : p1 ≤ p2) (rs1 rs2 : List ByteRange)
    (h1 : index.RectangleToIndexedRanges x y w h p1 = .ok rs1)
    (h2 : index.RectangleToIndexedRanges x y w h p2 = .ok rs2) :
    rs2.length ≤ rs1.length := by
  rw [SpatialIndex2D.RectangleToIndexedRanges, rtirCore] at h1 h2
  cases hs : rtirSamples index x y w h with
  | panicked => rw [hs] at h1; cases h1
  | fuelOut => rw [hs] at h1; cases h1
  | errored e => rw [hs] at h1; cases h1
  | ok v =>
    obtain ⟨sorted, wh, rb⟩ := v
    rw [hs] at h1 h2
    cases sorted with
    | nil => cases h1
    | cons c0 rest =>
      simp only at h1 h2
      injection h1 with h1
      injection h2 with h2
      rw [← h1, ← h2, List.length_map, List.length_map]
      obtain ⟨hwh0, hlen, _, _⟩ := rtirSamples_ok_basic index x y w h _ _ _ hs
      have hwh1 : 1 ≤ wh := by
        simp only [List.length_cons] at hlen
        omega
      apply mergeLoop_length_mono
      intro d hsplit
      rw [splitGap_iff_rat] at hsplit ⊢
      calc (wh : ℚ) * p1 ≤ (wh : ℚ) * p2 := by
            apply mul_le_mul_of_nonneg_left hple
            have : (1 : ℚ) ≤ (wh : ℚ) := by exact_mod_cast hwh1
            linarith
      _ < (d : ℚ) := hsplit

theorem claim_C7_iops_antitone_witness :
    ∃ rs1 rs2 : List ByteRange,
      index32.RectangleToIndexedRanges 0 0 4 4 1 = .ok rs1 ∧
      index32.RectangleToIndexedRanges 0 0 4 4 2 = .ok rs2 ∧
      rs2.length ≤ rs1.length := by
  refine ⟨_, _, rfl, rfl, ?_⟩
  exact claim_C7_iops_antitone index32 0 0 4 4 1 2 (by norm_num) (by norm_num) _ _ rfl rfl

/-! ## Safety of `RectangleToIndexedRanges` for positive rectangles (C10) -/

/-- `goInt64` is the identity on values already within `int64` range. -/
theorem goInt64_eq_self (v : Int) (h0 : -2 ^ 63 ≤ v) (h1 : v < 2 ^ 63) : goInt64 v = v := by
  rw [goInt64]
  omega

theorem downsampleLoop_step (fuel : Nat) (x y w h : Int) (rb : Nat)
    (hg : goInt64 (w * h) > 128) :
    downsampleLoop (fuel + 1) x y w h rb =
      downsampleLoop fuel
        (if x.tdiv 2 ≠ 0 then x.tdiv 2 + x.tmod (x.tdiv 2) else 0)
        (if y.tdiv 2 ≠ 0 then y.tdiv 2 + y.tmod (y.tdiv 2) else 0)
        (if w.tdiv 2 ≠ 0 then
            w.tdiv 2 + (if w.tdiv 2 ≠ 0 then w.tdiv 2 + w.tmod (w.tdiv 2) else 1).tmod (w.tdiv 2)
          else 1)
        (if w.tdiv 2 ≠ 0 then w.tdiv 2 + h.tmod (w.tdiv 2) else 1)
        (rb + 1) := by
  rw [downsampleLoop, if_pos hg]

/-- For a positive rectangle with both dimensions at most `2^31` — so that
every product the loop guard takes stays within `int64` and `goInt64` is the
identity on it — the downsampling loop terminates within the given bound,
keeps both dimensions in `[1, 2^31]`, and exits with `width*height ≤ 128`. -/
theorem downsampleLoop_ok :
    ∀ (fuel : Nat) (x y w h : Int) (rb : Nat), 1 ≤ w → w ≤ 2 ^ 31 → 1 ≤ h → h ≤ 2 ^ 31 →
      w.toNat + 2 ≤ fuel →
      ∃ x' y' w' h' rb', downsampleLoop fuel x y w h rb = some (x', y', w', h', rb') ∧
        1 ≤ w' ∧ 1 ≤ h' ∧ w' * h' ≤ 128 := by
  intro fuel
  induction fuel with
  | zero => intro x y w h rb hw hwB hh hhB hfuel; omega
  | succ fuel ih =>
    intro x y w h rb hw hwB hh hhB hfuel
    by_cases hg : goInt64 (w * h) > 128
    · rw [downsampleLoop_step fuel x y w h rb hg]
      by_cases hw2 : 2 ≤ w
      · have hdiv : w.tdiv 2 = w / 2 := Int.tdiv_eq_ediv (by omega) (by norm_num)
        have hhalf : 1 ≤ w.tdiv 2 ∧ 2 * w.tdiv 2 ≤ w := by rw [hdiv]; omega
        have hne : w.tdiv 2 ≠ 0 := by omega
        rw [if_pos hne, if_pos hne, if_pos hne]
        have hm1 : 0 ≤ w.tmod (w.tdiv 2) ∧ w.tmod (w.tdiv 2) < w.tdiv 2 :=
          ⟨Int.tmod_nonneg _ (by omega), Int.tmod_lt_of_pos w (by omega)⟩
        have hm2 : 0 ≤ (w.tdiv 2 + w.tmod (w.tdiv 2)).tmod (w.tdiv 2) ∧
            (w.tdiv 2 + w.tmod (w.tdiv 2)).tmod (w.tdiv 2) < w.tdiv 2 :=
          ⟨Int.tmod_nonneg _ (by omega), Int.tmod_lt_of_pos _ (by omega)⟩
        have hm3 : 0 ≤ h.tmod (w.tdiv 2) ∧ h.tmod (w.tdiv 2) < w.tdiv 2 :=
          ⟨Int.tmod_nonneg _ (by omega), Int.tmod_lt_of_pos h (by omega)⟩
        exact ih _ _ _ _ (rb + 1) (by omega) (by omega) (by omega) (by omega) (by omega)
      · have hw1 : w = 1 := by omega
        subst hw1
        have hcond : ¬ ((1 : Int).tdiv 2 ≠ 0) := by decide
        rw [if_neg hcond, if_neg hcond]
        have hf2 : 2 ≤ fuel := by omega
        obtain ⟨f, hf⟩ : ∃ f, fuel = f + 1 := ⟨fuel - 1, by omega⟩
        subst hf
        rw [downsampleLoop, if_neg (show ¬ (goInt64 ((1 : Int) * 1) > 128) by decide)]
        exact ⟨_, _, 1, 1, rb + 1, rfl, le_refl 1, le_refl 1, by norm_num⟩
    · rw [downsampleLoop, if_neg hg]
      refine ⟨x, y, w, h, rb, rfl, hw, hh, ?_⟩
      have hpos : 0 < w * h := mul_pos (by omega) (by omega)
      have hub : w * h ≤ 2 ^ 31 * 2 ^ 31 := mul_le_mul hwB hhB (by omega) (by positivity)
      have hself : goInt64 (w * h) = w * h :=
        goInt64_eq_self (w * h) (by norm_num at hub ⊢; omega) (by norm_num at hub ⊢; omega)
      rw [hself] at hg
      omega

theorem edgeCorrections_le (E x y w h : Int) :
    (edgeCorrections E x y w h).2.2.1 ≤ w + 2 ∧ (edgeCorrections E x y w h).2.2.2 ≤ h + 2 := by
  rw [edgeCorrections]
  dsimp only
  split_ifs <;> constructor <;> omega

theorem edgeCorrections_ge (E x y w h : Int) :
    w ≤ (edgeCorrections E x y w h).2.2.1 ∧ h ≤ (edgeCorrections E x y w h).2.2.2 := by
  rw [edgeCorrections]
  dsimp only
  split_ifs <;> constructor <;> omega

theorem sampleInner_ne_fuelOut (curve : hilbert) (fuel : Nat) (x y width i : Int) :
    ∀ (n : Nat) (j : Int) (cps : List Int),
      ¬ sampleInner curve fuel x y width i n j cps = .fuelOut := by
  intro n
  induction n with
  | zero => intro j cps hcon; cases hcon
  | succ n ih =>
    intro j cps hcon
    rw [sampleInner] at hcon
    cases hp : curve.pointToDistanceAlongCurve fuel (x + i + curve.edgeLength.tdiv 2)
        (y + j + curve.edgeLength.tdiv 2) with
    | error e => rw [hp] at hcon; cases hcon
    | ok d =>
      rw [hp] at hcon
      dsimp only at hcon
      cases hs : setChecked cps (j * width + i) d with
      | none => rw [hs] at hcon; cases hcon
      | some cps2 =>
        rw [hs] at hcon
        exact ih (j + 1) cps2 hcon

theorem sampleInner_ne_panicked (curve : hilbert) (fuel : Nat) (x y width i : Int)
    (hi0 : 0 ≤ i) (hiw : i < width) :
    ∀ (n : Nat) (j : Int) (cps : List Int), 0 ≤ j →
      (j + n) * width ≤ (cps.length : Int) →
      ¬ sampleInner curve fuel x y width i n j cps = .panicked := by
  intro n
  induction n with
  | zero => intro j cps _ _ hcon; cases hcon
  | succ n ih =>
    intro j cps hj hlen hcon
    rw [sampleInner] at hcon
    cases hp : curve.pointToDistanceAlongCurve fuel (x + i + curve.edgeLength.tdiv 2)
        (y + j + curve.edgeLength.tdiv 2) with
    | error e => rw [hp] at hcon; cases hcon
    | ok d =>
      rw [hp] at hcon
      dsimp only at hcon
      have hwpos : 0 < width := lt_of_le_of_lt hi0 hiw
      have hjw : 0 ≤ j * width := mul_nonneg hj (le_of_lt hwpos)
      have hidx0 : 0 ≤ j * width + i := by omega
      have hsum : (j + 1) * width = j * width + width := by ring
      have hmono : (j + 1) * width ≤ (j + 1 + (n : Int)) * width :=
        mul_le_mul_of_nonneg_right (by omega) (le_of_lt hwpos)
      have hlen' : (j + 1 + (n : Int)) * width ≤ (cps.length : Int) := by
        calc (j + 1 + (n : Int)) * width = (j + ((n : Int) + 1)) * width := by ring
        _ = (j + ((n + 1 : Nat) : Int)) * width := by push_cast; ring
        _ ≤ (cps.length : Int) := hlen
      have hlt : j * width + i < (cps.length : Int) := by omega
      have hset : setChecked cps (j * width + i) d =
          some (cps.set (j * width + i).toNat d) := by
        rw [setChecked, if_pos ⟨hidx0, by omega⟩]
      rw [hset] at hcon
      dsimp only at hcon
      refine ih (j + 1) (cps.set (j * width + i).toNat d) (by omega) ?_ hcon
      rw [List.length_set]
      exact hlen'

theorem sampleOuter_ne_fuelOut (curve : hilbert) (fuel : Nat) (x y width height : Int) :
    ∀ (n : Nat) (i : Int) (cps : List Int),
      ¬ sampleOuter curve fuel x y width height n i cps = .fuelOut := by
  intro n
  induction n with
  | zero => intro i cps hcon; cases hcon
  | succ n ih =>
    intro i cps hcon
    rw [sampleOuter] at hcon
    cases hs : sampleInner curve fuel x y width i height.toNat 0 cps with
    | panicked => rw [hs] at hcon; cases hcon
    | fuelOut => exact sampleInner_ne_fuelOut curve fuel x y width i _ _ _ hs
    | errored e => rw [hs] at hcon; cases hcon
    | ok cps2 =>
      rw [hs] at hcon
      exact ih (i + 1) cps2 hcon

theorem sampleOuter_ne_panicked (curve : hilbert) (fuel : Nat) (x y width height : Int)
    (hh0 : 0 ≤ height) :
    ∀ (n : Nat) (i : Int) (cps : List Int), 0 ≤ i → i + n ≤ width →
      height * width ≤ (cps.length : Int) →
      ¬ sampleOuter curve fuel x y width height n i cps = .panicked := by
  intro n
  induction n with
  | zero => intro i cps _ _ _ hcon; cases hcon
  | succ n ih =>
    intro i cps hi hiw hlen hcon
    rw [sampleOuter] at hcon
    have hiw' : i < width := by
      have : ((n + 1 : Nat) : Int) = (n : Int) + 1 := by push_cast; ring
      omega
    have hinner : ¬ sampleInner curve fuel x y width i height.toNat 0 cps = .panicked := by
      apply sampleInner_ne_panicked curve fuel x y width i hi hiw' height.toNat 0 cps le_rfl
      rw [Int.zero_add, Int.toNat_of_nonneg hh0]
      exact hlen
    cases hs : sampleInner curve fuel x y width i height.toNat 0 cps with
    | panicked => exact hinner hs
    | fuelOut => exact sampleInner_ne_fuelOut curve fuel x y width i _ _ _ hs
    | errored e => rw [hs] at hcon; cases hcon
    | ok cps2 =>
      rw [hs] at hcon
      refine ih (i + 1) cps2 (by omega) ?_ ?_ hcon
      · have : ((n + 1 : Nat) : Int) = (n : Int) + 1 := by push_cast; ring
        omega
      · rw [sampleInner_ok_length curve fuel x y width i _ _ _ _ hs]
        exact hlen

/-- For a positive rectangle with both dimensions at most `2^31` (so that
no product the source takes leaves `int64` range), the sampling prefix of
`RectangleToIndexedRanges` either fails with a Go error or succeeds with a
positive cell count; it never panics and never exhausts its iteration
bounds. -/
theorem rtirSamples_result (index : SpatialIndex2D) (x y w h : Int)
    (hw : 1 ≤ w) (hwB : w ≤ 2 ^ 31) (hh : 1 ≤ h) (hhB : h ≤ 2 ^ 31) :
    (∃ e, rtirSamples index x y w h = .errored e) ∨
      ∃ sorted wh rb, rtirSamples index x y w h = .ok (sorted, wh, rb) ∧ 1 ≤ wh := by
  obtain ⟨x1, y1, w1, h1, rb1, hds, hw1, hh1, hwh1⟩ :=
    downsampleLoop_ok (downsampleFuel w h) x y w h 0 hw hwB hh hhB
      (by rw [downsampleFuel]; omega)
  have hw1B : w1 ≤ 128 := le_trans (le_mul_of_one_le_right (by omega) hh1) hwh1
  have hh1B : h1 ≤ 128 := le_trans (le_mul_of_one_le_left (by omega) hw1) hwh1
  rw [rtirSamples, hds]
  dsimp only
  by_cases hbig : index.edgeSizeBits - (rb1 : Int) < 3
  · rw [if_pos hbig]
    exact .inl ⟨_, rfl⟩
  · rw [if_neg hbig]
    rcases hc : (if rb1 > 0 then
        edgeCorrections (2 ^ (index.edgeSizeBits - (rb1 : Int)).toNat) x1 y1 w1 h1
      else (x1, y1, w1, h1)) with ⟨x2, y2, w2, h2⟩
    have hwh2 : (1 ≤ w2 ∧ 1 ≤ h2) ∧ w2 ≤ 130 ∧ h2 ≤ 130 := by
      by_cases hrb : rb1 > 0
      · rw [if_pos hrb] at hc
        have hge := edgeCorrections_ge (2 ^ (index.edgeSizeBits - (rb1 : Int)).toNat) x1 y1 w1 h1
        have hle := edgeCorrections_le (2 ^ (index.edgeSizeBits - (rb1 : Int)).toNat) x1 y1 w1 h1
        rw [hc] at hge hle
        dsimp only at hge hle
        exact ⟨⟨le_trans hw1 hge.1, le_trans hh1 hge.2⟩, by omega, by omega⟩
      · rw [if_neg hrb] at hc
        simp only [Prod.mk.injEq] at hc
        obtain ⟨-, -, hw', hh'⟩ := hc
        subst hw' hh'
        exact ⟨⟨hw1, hh1⟩, by omega, by omega⟩
    obtain ⟨⟨hw2, hh2⟩, hw2B, hh2B⟩ := hwh2
    dsimp only
    have hwhpos : 0 < w2 * h2 := mul_pos (by omega) (by omega)
    have hwhub : w2 * h2 ≤ 130 * 130 := mul_le_mul hw2B hh2B (by omega) (by omega)
    have hself : goInt64 (w2 * h2) = w2 * h2 :=
      goInt64_eq_self (w2 * h2) (by norm_num at hwhub ⊢; omega) (by norm_num at hwhub ⊢; omega)
    rw [if_neg (by rw [hself]; omega)]
    cases hso : sampleOuter ⟨2 ^ (index.edgeSizeBits - (rb1 : Int)).toNat⟩
        (index.edgeSizeBits - (rb1 : Int)).toNat x2 y2 w2 h2 w2.toNat 0
        (List.replicate (goInt64 (w2 * h2)).toNat 0) with
    | panicked =>
      exact absurd hso (by
        apply sampleOuter_ne_panicked _ _ _ _ _ _ (by omega) _ 0 _ le_rfl
        · rw [Int.zero_add, Int.toNat_of_nonneg (by omega : (0:Int) ≤ w2)]
        · rw [List.length_replicate, hself,
            Int.toNat_of_nonneg (by omega : (0:Int) ≤ w2 * h2), Int.mul_comm h2 w2])
    | fuelOut => exact absurd hso (sampleOuter_ne_fuelOut _ _ _ _ _ _ _ _ _)
    | errored e => exact .inl ⟨e, rfl⟩
    | ok cps => exact .inr ⟨_, _, _, rfl, by rw [hself]; omega⟩

/-- C10 (counterexample): the claim fails in both directions.  First, for
`width = height = -1` (so the precondition `width ≥ 1 ∧ height ≥ 1` fails),
the first-element access is NOT out of bounds: `width*height = 1`, so
`make([]int, width*height)` allocates one (never-written) cell and the call
returns a single all-zero range instead of panicking.  Second, even under
the precondition, the slice accesses are not always in bounds: for
`width = height = 2^32` Go's `int` multiplication wraps `width*height` to
`0`, the downsampling loop is skipped, `make([]int, 0)` allocates an empty
slice and the first sampling store `curvePoints[0] = d` panics. -/
theorem claim_C10_safety_counterexample :
    (((-1 : Int) ≤ 0 ∧ (-1 : Int) ≤ 0) ∧
      index64.RectangleToIndexedRanges 0 0 (-1) (-1) 1 =
        .ok [⟨List.replicate 8 0, List.replicate 8 0⟩]) ∧
    ((1 : Int) ≤ 2 ^ 32 ∧ goInt64 (2 ^ 32 * 2 ^ 32) = 0 ∧
      index64.RectangleToIndexedRanges 0 0 (2 ^ 32) (2 ^ 32) 1 = .panicked) := by
  refine ⟨⟨by decide, ?_⟩, by decide, by decide, ?_⟩
  · rfl
  · rfl

/-- C10 (amended): under the precondition `1 ≤ width ≤ 2^31` and
`1 ≤ height ≤ 2^31` — the upper bounds keep every `width*height` product
the source computes within `int64`, where Go's multiplication would
otherwise wrap (see the counterexample theorem for `width = height = 2^32`)
— `RectangleToIndexedRanges` never panics (every slice access is in
bounds), never exhausts the model's iteration bounds, and every successful
result contains at least one range.  (The original claim's converse clause
— that `width ≤ 0` or `height ≤ 0` always makes the first-element access go
out of bounds — is refuted by `width = height = -1`.) -/
theorem claim_C10_positive_rect_safety (index : SpatialIndex2D) (x y w h : Int) (p : ℚ)
    (hw : 1 ≤ w) (hwB : w ≤ 2 ^ 31) (hh : 1 ≤ h) (hhB : h ≤ 2 ^ 31) :
    index.RectangleToIndexedRanges x y w h p ≠ .panicked ∧
    index.RectangleToIndexedRanges x y w h p ≠ .fuelOut ∧
    ∀ rs, index.RectangleToIndexedRanges x y w h p = .ok rs → 1 ≤ rs.length := by
  rw [SpatialIndex2D.RectangleToIndexedRanges, rtirCore]
  rcases rtirSamples_result index x y w h hw hwB hh hhB
    with ⟨e, he⟩ | ⟨sorted, wh, rb, hok, hwh⟩
  · rw [he]
    refine ⟨?_, ?_, ?_⟩
    · intro hcon; cases hcon
    · intro hcon; cases hcon
    · intro rs hcon; cases hcon
  · rw [hok]
    obtain ⟨_, hlen, _, _⟩ := rtirSamples_ok_basic index x y w h _ _ _ hok
    cases sorted with
    | nil =>
      simp only [List.length_nil] at hlen
      omega
    | cons c0 rest =>
      dsimp only
      refine ⟨?_, ?_, ?_⟩
      · intro hcon; cases hcon
      · intro hcon; cases hcon
      intro rs hrs
      injection hrs with hrs
      rw [← hrs, List.length_map]
      exact mergeLoop_length_pos wh p.num (p.den : Int) rest c0 c0

theorem claim_C10_positive_rect_safety_witness :
    ((1 : Int) ≤ 1 ∧ (1 : Int) ≤ 2 ^ 31) ∧
      (index64.RectangleToIndexedRanges 0 0 1 1 1 ≠ .panicked ∧
       index64.RectangleToIndexedRanges 0 0 1 1 1 ≠ .fuelOut ∧
       ∀ rs, index64.RectangleToIndexedRanges 0 0 1 1 1 = .ok rs → 1 ≤ rs.length) :=
  ⟨by decide, claim_C10_positive_rect_safety index64 0 0 1 1 1 (by decide) (by decide)
    (by decide) (by decide)⟩

/-! ## Ordering of the returned ranges (C8) -/

theorem pointToDistance_ok_range (m fuel : Nat) (hfuel : m ≤ fuel) (x y d : Int)
    (h : hilbert.pointToDistanceAlongCurve ⟨2 ^ m⟩ fuel x y = .ok d) :
    0 ≤ d ∧ d < 4 ^ m := by
  by_cases hg : (x < 0 ∨ x ≥ (⟨2 ^ m⟩ : hilbert).edgeLength ∨ y < 0 ∨
      y ≥ (⟨2 ^ m⟩ : hilbert).edgeLength)
  · rw [hilbert.pointToDistanceAlongCurve, if_pos hg] at h
    cases h
  · push_neg at hg
    obtain ⟨hx0, hx1, hy0, hy1⟩ := hg
    rw [pointToDistance_eq_invRec m fuel hfuel x y hx0 hx1 hy0 hy1] at h
    injection h with h
    rw [← h]
    exact invRec_range m x y

theorem sampleInner_mem (curve : hilbert) (fuel : Nat) (x y width i : Int) (P : Int → Prop)
    (hP : ∀ (j d : Int), curve.pointToDistanceAlongCurve fuel
      (x + i + curve.edgeLength.tdiv 2) (y + j + curve.edgeLength.tdiv 2) = .ok d → P d) :
    ∀ (n : Nat) (j : Int) (cps cps' : List Int), (∀ v ∈ cps, P v) →
      sampleInner curve fuel x y width i n j cps = .ok cps' → ∀ v ∈ cps', P v := by
  intro n
  induction n with
  | zero =>
    intro j cps cps' hall hok
    injection hok with hok
    rw [← hok]
    exact hall
  | succ n ih =>
    intro j cps cps' hall hok
    rw [sampleInner] at hok
    cases hp : curve.pointToDistanceAlongCurve fuel (x + i + curve.edgeLength.tdiv 2)
        (y + j + curve.edgeLength.tdiv 2) with
    | error e => rw [hp] at hok; cases hok
    | ok d =>
      rw [hp] at hok
      dsimp only at hok
      cases hsc : setChecked cps (j * width + i) d with
      | none => rw [hsc] at hok; cases hok
      | some cps2 =>
        rw [hsc] at hok
        refine ih (j + 1) cps2 cps' ?_ hok
        rw [setChecked] at hsc
        by_cases hb : 0 ≤ j * width + i ∧ (j * width + i).toNat < cps.length
        · rw [if_pos hb] at hsc
          injection hsc with hsc
          intro v hv
          rw [← hsc] at hv
          rcases List.mem_or_eq_of_mem_set hv with hv | heq
          · exact hall v hv
          · rw [heq]; exact hP j d hp
        · rw [if_neg hb] at hsc; cases hsc

theorem sampleOuter_mem (curve : hilbert) (fuel : Nat) (x y width height : Int)
    (P : Int → Prop)
    (hP : ∀ (i j d : Int), curve.pointToDistanceAlongCurve fuel
      (x + i + curve.edgeLength.tdiv 2) (y + j + curve.edgeLength.tdiv 2) = .ok d → P d) :
    ∀ (n : Nat) (i : Int) (cps cps' : List Int), (∀ v ∈ cps, P v) →
      sampleOuter curve fuel x y width height n i cps = .ok cps' → ∀ v ∈ cps', P v := by
  intro n
  induction n with
  | zero =>
    intro i cps cps' hall hok
    injection hok with hok
    rw [← hok]
    exact hall
  | succ n ih =>
    intro i cps cps' hall hok
    rw [sampleOuter] at hok
    cases hs : sampleInner curve fuel x y width i height.toNat 0 cps with
    | panicked => rw [hs] at hok; cases hok
    | fuelOut => rw [hs] at hok; cases hok
    | errored e => rw [hs] at hok; cases hok
    | ok cps2 =>
      rw [hs] at hok
      exact ih (i + 1) cps2 cps'
        (sampleInner_mem curve fuel x y width i P (hP i) height.toNat 0 cps cps2 hall hs) hok

/-- Every distance collected by a successful sampling stage lies in
`[0, 4^(edgeSizeBits - reducedBits))`, the length of the downsampled curve. -/
theorem rtirSamples_ok_bounds (index : SpatialIndex2D) (x y w h : Int)
    (sorted : List Int) (wh : Int) (rb : Nat)
    (hok : rtirSamples index x y w h = .ok (sorted, wh, rb)) :
    ∀ v ∈ sorted, 0 ≤ v ∧ v < 4 ^ (index.edgeSizeBits - (rb : Int)).toNat := by
  rw [rtirSamples] at hok
  cases hds : downsampleLoop (downsampleFuel w h) x y w h 0 with
  | none => rw [hds] at hok; cases hok
  | some st =>
    rw [hds] at hok
    obtain ⟨x1, y1, w1, h1, rb1⟩ := st
    dsimp only at hok
    by_cases hbig : index.edgeSizeBits - (rb1 : Int) < 3
    · rw [if_pos hbig] at hok; cases hok
    · rw [if_neg hbig] at hok
      rcases hc : (if rb1 > 0 then
          edgeCorrections (2 ^ (index.edgeSizeBits - (rb1 : Int)).toNat) x1 y1 w1 h1
        else (x1, y1, w1, h1)) with ⟨x2, y2, w2, h2⟩
      rw [hc] at hok
      by_cases hneg : goInt64 (w2 * h2) < 0
      · rw [if_pos hneg] at hok; cases hok
      · rw [if_neg hneg] at hok
        cases hso : sampleOuter ⟨2 ^ (index.edgeSizeBits - (rb1 : Int)).toNat⟩
            (index.edgeSizeBits - (rb1 : Int)).toNat x2 y2 w2 h2 w2.toNat 0
            (List.replicate (goInt64 (w2 * h2)).toNat 0) with
        | panicked => rw [hso] at hok; cases hok
        | fuelOut => rw [hso] at hok; cases hok
        | errored e => rw [hso] at hok; cases hok
        | ok cps =>
          rw [hso] at hok
          injection hok with hok
          obtain ⟨h1', h2', h3'⟩ : sorted = cps.insertionSort (· ≤ ·) ∧
              wh = goInt64 (w2 * h2) ∧ rb = rb1 := by
            have := hok
            injection this with ha hb
            injection hb with hb1 hb2
            exact ⟨ha.symm, hb1.symm, hb2.symm⟩
          subst h1' h3'
          have hmem : ∀ v ∈ cps, 0 ≤ v ∧
              v < 4 ^ (index.edgeSizeBits - (rb : Int)).toNat := by
            refine sampleOuter_mem _ _ x2 y2 w2 h2
              (fun v => 0 ≤ v ∧ v < 4 ^ (index.edgeSizeBits - (rb : Int)).toNat)
              ?_ w2.toNat 0 _ cps ?_ hso
            · intro i j d hd
              exact pointToDistance_ok_range _ _ le_rfl _ _ d hd
            · intro v hv
              rw [List.eq_of_mem_replicate hv]
              exact ⟨le_refl 0, pow_pos (by norm_num) _⟩
          intro v hv
          exact hmem v ((List.perm_insertionSort (· ≤ ·) cps).mem_iff.mp hv)

theorem mergeLoop_mem (wh pN pD : Int) :
    ∀ (l : List Int) (start prev : Int) (r : Int × Int),
      r ∈ mergeLoop wh pN pD start prev l →
      (r.1 = start ∨ r.1 ∈ l) ∧ (r.2 = prev ∨ r.2 ∈ l) := by
  intro l
  induction l with
  | nil =>
    intro start prev r hr
    rw [mergeLoop] at hr
    rcases List.mem_singleton.mp hr with rfl
    exact ⟨.inl rfl, .inl rfl⟩
  | cons c rest ih =>
    intro start prev r hr
    rw [mergeLoop] at hr
    by_cases hs : splitGap wh (c - prev) pN pD = true
    · rw [if_pos hs] at hr
      rcases List.mem_cons.mp hr with rfl | hr
      · exact ⟨.inl rfl, .inl rfl⟩
      · obtain ⟨h1, h2⟩ := ih c c r hr
        constructor
        · rcases h1 with h1 | h1
          · exact .inr (by rw [h1]; exact List.mem_cons_self c rest)
          · exact .inr (List.mem_cons_of_mem c h1)
        · rcases h2 with h2 | h2
          · exact .inr (by rw [h2]; exact List.mem_cons_self c rest)
          · exact .inr (List.mem_cons_of_mem c h2)
    · rw [if_neg hs] at hr
      obtain ⟨h1, h2⟩ := ih start c r hr
      constructor
      · rcases h1 with h1 | h1
        · exact .inl h1
        · exact .inr (List.mem_cons_of_mem c h1)
      · rcases h2 with h2 | h2
        · exact .inr (by rw [h2]; exact List.mem_cons_self c rest)
        · exact .inr (List.mem_cons_of_mem c h2)

/-- Structure of the merged ranges when the inputs are an ascending list all
at least `prev`: each range is nonempty (`start ≤ end`), consecutive ranges
are in ascending order, and the first range starts at `start`. -/
theorem mergeLoop_props (wh pN pD : Int) :
    ∀ (l : List Int) (start prev : Int), start ≤ prev → (∀ v ∈ l, prev ≤ v) →
      l.Pairwise (· ≤ ·) →
      (∀ r ∈ mergeLoop wh pN pD start prev l, r.1 ≤ r.2) ∧
      (mergeLoop wh pN pD start prev l).Chain' (fun r1 r2 => r1.2 ≤ r2.1) ∧
      ∀ r ∈ (mergeLoop wh pN pD start prev l).head?, r.1 = start := by
  intro l
  induction l with
  | nil =>
    intro start prev hsp _ _
    rw [mergeLoop]
    refine ⟨?_, List.chain'_singleton _, ?_⟩
    · intro r hr
      rcases List.mem_singleton.mp hr with rfl
      exact hsp
    · intro r hr
      simp only [List.head?_cons, Option.mem_def, Option.some.injEq] at hr
      rw [← hr]
  | cons c rest ih =>
    intro start prev hsp hprev hpw
    have hpc : prev ≤ c := hprev c (List.mem_cons_self c rest)
    have hrest : ∀ v ∈ rest, c ≤ v := fun v hv => (List.pairwise_cons.mp hpw).1 v hv
    have hpw' : rest.Pairwise (· ≤ ·) := (List.pairwise_cons.mp hpw).2
    rw [mergeLoop]
    by_cases hs : splitGap wh (c - prev) pN pD = true
    · rw [if_pos hs]
      obtain ⟨ih1, ih2, ih3⟩ := ih c c le_rfl hrest hpw'
      refine ⟨?_, ?_, ?_⟩
      · intro r hr
        rcases List.mem_cons.mp hr with rfl | hr
        · exact hsp
        · exact ih1 r hr
      · rw [List.chain'_cons']
        refine ⟨?_, ih2⟩
        intro b hb
        have hb1 := ih3 b hb
        show (start, prev).2 ≤ b.1
        rw [hb1]
        exact hpc
      · intro r hr
        simp only [List.head?_cons, Option.mem_def, Option.some.injEq] at hr
        rw [← hr]
    · rw [if_neg hs]
      exact ih start c (le_trans hsp hpc) hrest hpw'

theorem chain'_of_chain'_strong {α : Type} {R S : α → α → Prop} {P : α → Prop}
    (himp : ∀ a b, P a → P b → R a b → S a b) :
    ∀ l : List α, (∀ a ∈ l, P a) → l.Chain' R → l.Chain' S := by
  intro l
  induction l with
  | nil => intro _ _; exact List.chain'_nil
  | cons a l ih =>
    intro hall hc
    rw [List.chain'_cons'] at hc ⊢
    refine ⟨?_, ih (fun b hb => hall b (List.mem_cons_of_mem a hb)) hc.2⟩
    intro b hb
    have hbmem : b ∈ l := by
      cases l with
      | nil => cases hb
      | cons c l' =>
        simp only [List.head?_cons, Option.mem_def, Option.some.injEq] at hb
        rw [← hb]
        exact List.mem_cons_self c l'
    exact himp a b (hall a (List.mem_cons_self a l)) (hall b (List.mem_cons_of_mem a hbmem))
      (hc.1 b hb)

/-- C8: whenever `RectangleToIndexedRanges` (on a constructed codec)
succeeds, every returned range has `Start ≤ End` and consecutive ranges
satisfy `End ≤ next Start`, under lexicographic byte comparison. -/
theorem claim_C8_ranges_ordered (bits : Int) (index : SpatialIndex2D)
    (hnew : NewSpatialIndex2D bits = .ok index) (x y w h : Int) (p : ℚ)
    (rs : List ByteRange)
    (hok : index.RectangleToIndexedRanges x y w h p = .ok rs) :
    (∀ r ∈ rs, lexLe r.Start r.End = true) ∧
      rs.Chain' (fun r1 r2 => lexLe r1.End r2.Start = true) := by
  rw [SpatialIndex2D.RectangleToIndexedRanges, rtirCore] at hok
  cases hs : rtirSamples index x y w h with
  | panicked => rw [hs] at hok; cases hok
  | fuelOut => rw [hs] at hok; cases hok
  | errored e => rw [hs] at hok; cases hok
  | ok v =>
    obtain ⟨sorted, wh, rb⟩ := v
    rw [hs] at hok
    cases sorted with
    | nil => cases hok
    | cons c0 rest =>
      dsimp only at hok
      injection hok with hok
      obtain ⟨_, _, hesb, hsortpw⟩ := rtirSamples_ok_basic index x y w h _ _ _ hs
      have hbounds := rtirSamples_ok_bounds index x y w h _ _ _ hs
      have hEL : index.edgeLength = 2 ^ index.edgeSizeBits.toNat ∧
          0 ≤ index.edgeSizeBits := by
        rcases NewSpatialIndex2D_inv bits index hnew with ⟨hb, rfl⟩ | ⟨hb, rfl⟩
        · exact ⟨by decide, by decide⟩
        · exact ⟨by decide, by decide⟩
      have hscale : ∀ v : Int, 0 ≤ v →
          v < 4 ^ (index.edgeSizeBits - (rb : Int)).toNat →
          0 ≤ v * 2 ^ (rb * 2) ∧
            v * 2 ^ (rb * 2) ≤ index.edgeLength * index.edgeLength := by
        intro v hv0 hv1
        have h4 : (2 : Int) ^ (rb * 2) = 4 ^ rb := by
          rw [show rb * 2 = 2 * rb from by ring, pow_mul]
          norm_num
        have h4pos : (0 : Int) < 4 ^ rb := pow_pos (by norm_num) rb
        constructor
        · exact mul_nonneg hv0 (by omega)
        · have hstep : v * 2 ^ (rb * 2) ≤ (4 ^ (index.edgeSizeBits - (rb : Int)).toNat - 1) *
              4 ^ rb := by
            rw [h4]
            exact mul_le_mul_of_nonneg_right (by omega) (by omega)
          have hsum : (index.edgeSizeBits - (rb : Int)).toNat + rb =
              index.edgeSizeBits.toNat := by omega
          have hpow : (4 : Int) ^ (index.edgeSizeBits - (rb : Int)).toNat * 4 ^ rb =
              4 ^ index.edgeSizeBits.toNat := by
            rw [← pow_add, hsum]
          have hsq : index.edgeLength * index.edgeLength =
              4 ^ index.edgeSizeBits.toNat := by
            rw [hEL.1, ← mul_pow]
            norm_num
          rw [hsq]
          calc v * 2 ^ (rb * 2)
              ≤ (4 ^ (index.edgeSizeBits - (rb : Int)).toNat - 1) * 4 ^ rb := hstep
          _ = 4 ^ (index.edgeSizeBits - (rb : Int)).toNat * 4 ^ rb - 4 ^ rb := by ring
          _ ≤ 4 ^ index.edgeSizeBits.toNat := by rw [hpow]; omega
      have hpwc := List.pairwise_cons.mp hsortpw
      obtain ⟨hr_le, hr_chain, _⟩ :=
        mergeLoop_props wh p.num (p.den : Int) rest c0 c0 le_rfl hpwc.1 hpwc.2
      have hmemb : ∀ r ∈ mergeLoop wh p.num (p.den : Int) c0 c0 rest,
          (0 ≤ r.1 ∧ r.1 < 4 ^ (index.edgeSizeBits - (rb : Int)).toNat) ∧
          (0 ≤ r.2 ∧ r.2 < 4 ^ (index.edgeSizeBits - (rb : Int)).toNat) := by
        intro r hr
        obtain ⟨h1, h2⟩ := mergeLoop_mem wh p.num (p.den : Int) rest c0 c0 r hr
        have hc0 := hbounds c0 (List.mem_cons_self c0 rest)
        constructor
        · rcases h1 with h1 | h1
          · rw [h1]; exact hc0
          · exact hbounds r.1 (List.mem_cons_of_mem c0 h1)
        · rcases h2 with h2 | h2
          · rw [h2]; exact hc0
          · exact hbounds r.2 (List.mem_cons_of_mem c0 h2)
      rw [← hok]
      constructor
      · intro br hbr
        obtain ⟨r, hrmem, rfl⟩ := List.mem_map.mp hbr
        obtain ⟨⟨ha0, ha1⟩, ⟨hb0, hb1⟩⟩ := hmemb r hrmem
        obtain ⟨hs1, hs2⟩ := hscale r.1 ha0 ha1
        obtain ⟨ht1, ht2⟩ := hscale r.2 hb0 hb1
        exact intToEightBytes_lexLe bits index hnew _ _ hs1
          (mul_le_mul_of_nonneg_right (hr_le r hrmem) (by positivity)) ht2
      · rw [List.chain'_map]
        apply chain'_of_chain'_strong ?_ _ hmemb hr_chain
        intro a b ha hb hab
        obtain ⟨hs1, hs2⟩ := hscale a.2 ha.2.1 ha.2.2
        obtain ⟨ht1, ht2⟩ := hscale b.1 hb.1.1 hb.1.2
        exact intToEightBytes_lexLe bits index hnew _ _ hs1
          (mul_le_mul_of_nonneg_right hab (by positivity)) ht2

theorem claim_C8_ranges_ordered_witness :
    ∃ rs : List ByteRange, index32.RectangleToIndexedRanges 0 0 4 4 1 = .ok rs ∧
      ((∀ r ∈ rs, lexLe r.Start r.End = true) ∧
        rs.Chain' (fun r1 r2 => lexLe r1.End r2.Start = true)) :=
  ⟨_, rfl, claim_C8_ranges_ordered 32 index32 rfl 0 0 4 4 1 _ rfl⟩

/-- C1 (code bug): the coverage guarantee fails.  The point `(1, 100)` lies
strictly inside the rectangle `(x,y,width,height) = (0, 0, 2, 300)`, its key
encodes the curve distance `2305843009213709369`, yet for
`iopsCostParam = 1` the 64-bit codec returns the single range
`[2305843009213693952, 2305843009213694008]` whose end key is
lexicographically strictly below the point's key, so the key is outside the
union of the returned ranges.  (Root cause: the downsampling loop halves
`height` by `width`'s half — `halfHeight := width / 2` — so the tall
rectangle collapses to a few cells near its bottom edge and the samples
never reach the curve cell containing `(1, 100)`.) -/
theorem claim_C1_coverage_counterexample :
    ((0 : Int) < 1 ∧ (1 : Int) < 0 + 2 ∧ (0 : Int) < 100 ∧ (100 : Int) < 0 + 300) ∧
    index64.GetIndexedPoint 1 100 = .ok [32, 0, 0, 0, 0, 0, 60, 57] ∧
    index64.RectangleToIndexedRanges 0 0 2 300 1 =
      .ok [⟨[32, 0, 0, 0, 0, 0, 0, 0], [32, 0, 0, 0, 0, 0, 0, 56]⟩] ∧
    lexLt [32, 0, 0, 0, 0, 0, 0, 56] [32, 0, 0, 0, 0, 0, 60, 57] = true := by
  refine ⟨by decide, ?_, ?_, by decide⟩
  · rfl
  · rfl

end ModularSpatialIndex
